import Mathlib

/-!
# Verification of the RubriX cache / CFG-validation core

Shallow embedding of `src/backend/cache.py` and
`src/backend/analyzers/cfg_generator.py`, together with theorems settling
the frozen claims about them.

Conventions of the embedding:
* SQLite timestamps are abstract instants (`Nat`); `datetime.isoformat`
  strings of a fixed clock compare lexicographically exactly as the
  instants compare, so `expires_at > now` on strings is `now < expires_at`
  on instants.
* `json.dumps` / `json.loads` round-trip a record unchanged, so the stored
  `response` column is modelled as the stored value itself.
* Python dictionaries with optional keys become structures of `Option`
  fields; a key that may be present with value `None` (the `condition`
  field of a node) is `Option (Option String)`.
* The storage-fault `except` wrappers of `cache.py` (log and degrade)
  are outside the model: operations are modelled on the fault-free path.
-/

/-! ## Cache store (`src/backend/cache.py`) -/

/-- Modelled from the spec: the `ai_cache` table itself is created in
`database.py`, which is not under `src/`; per the spec the table is keyed
by `(callType, contentHash)` ("`(callType, contentHash)` uniquely
identifies at most one live entry; writing to an existing key replaces it
(no duplicate rows, hit counter reset to 0)"), so `INSERT OR REPLACE`
deletes any row with the same key and inserts a fresh row with a fresh
rowid.  One row of `ai_cache`. -/
structure CacheRow where
  id : Nat
  call_type : String
  content_hash : String
  response : String
  created_at : Nat
  expires_at : Nat
  hit_count : Nat
deriving DecidableEq

/-- The whole `ai_cache` table plus the next fresh rowid. -/
structure CacheState where
  rows : List CacheRow
  next_id : Nat
deriving DecidableEq

/-- `cache.py` line 58: `get_cached_response`.  `SELECT id, response FROM
ai_cache WHERE call_type = ? AND content_hash = ? AND expires_at > ?`
followed, on a hit, by `UPDATE ai_cache SET hit_count = hit_count + 1
WHERE id = ?`.  Returns the looked-up response (or `none`) and the table
after the hit-count update. -/
def get_cached_response (s : CacheState) (now : Nat) (call_type content_hash : String) :
    Option String × CacheState :=
  match s.rows.find? (fun r =>
      decide (r.call_type = call_type ∧ r.content_hash = content_hash ∧ now < r.expires_at)) with
  | some row =>
      (some row.response,
        { s with rows := s.rows.map (fun q =>
            if q.id = row.id then { q with hit_count := q.hit_count + 1 } else q) })
  | none => (none, s)

/-- `cache.py` line 89: `set_cached_response`.  `INSERT OR REPLACE INTO
ai_cache (call_type, content_hash, response, created_at, expires_at,
hit_count) VALUES (?, ?, ?, ?, ?, 0)` with `expires_at = now + TTL`. -/
def set_cached_response (s : CacheState) (now ttl : Nat)
    (call_type content_hash response : String) : CacheState :=
  { rows := s.rows.filter
        (fun r => !decide (r.call_type = call_type ∧ r.content_hash = content_hash))
      ++ [{ id := s.next_id, call_type := call_type, content_hash := content_hash,
            response := response, created_at := now, expires_at := now + ttl,
            hit_count := 0 }],
    next_id := s.next_id + 1 }

/-- Result record of `get_cache_stats` (the `by_call_type` breakdown is
not modelled: its SQL result order on hit-count ties is unspecified and no
claim refers to it). -/
structure CacheStats where
  total_entries : Nat
  active_entries : Nat
  expired_entries : Nat
  total_cache_hits : Nat
  ttl_hours : Nat
deriving DecidableEq

/-- `cache.py` line 116: `get_cache_stats`.  Note line 134: the total-hits
query is `SELECT COALESCE(SUM(hit_count), 0) FROM ai_cache` with no
`WHERE` clause, i.e. summed over every row of the table. -/
def get_cache_stats (s : CacheState) (now ttl : Nat) : CacheStats :=
  { total_entries := s.rows.length,
    active_entries := (s.rows.filter (fun r => decide (now < r.expires_at))).length,
    expired_entries :=
      s.rows.length - (s.rows.filter (fun r => decide (now < r.expires_at))).length,
    total_cache_hits := (s.rows.map (fun r => r.hit_count)).sum,
    ttl_hours := ttl }

/-- `cache.py` line 162: `cleanup_expired_cache`.  `DELETE FROM ai_cache
WHERE expires_at <= ?`; returns `cursor.rowcount` (the number of deleted
rows) and the table afterwards. -/
def cleanup_expired_cache (s : CacheState) (now : Nat) : Nat × CacheState :=
  ((s.rows.filter (fun r => decide (r.expires_at ≤ now))).length,
   { s with rows := s.rows.filter (fun r => !decide (r.expires_at ≤ now)) })

/-- The quantity the spec says `total_cache_hits` is: the hit counts
summed over the live (unexpired) rows only. -/
def liveHitSum (s : CacheState) (now : Nat) : Nat :=
  ((s.rows.filter (fun r => decide (now < r.expires_at))).map (fun r => r.hit_count)).sum

/-- Hit counts summed over the expired rows. -/
def expiredHitSum (s : CacheState) (now : Nat) : Nat :=
  ((s.rows.filter (fun r => !decide (now < r.expires_at))).map (fun r => r.hit_count)).sum

/-- Hit count of the (unique) row with the given key, if any. -/
def hitCountOf (s : CacheState) (call_type content_hash : String) : Option Nat :=
  (s.rows.find? (fun r =>
      decide (r.call_type = call_type ∧ r.content_hash = content_hash))).map
    (fun r => r.hit_count)

/-- `cache.py` line 54: the string that `generate_cache_key` feeds to
SHA-256: `call_type + "||" + "||".join(str(p) for p in content_parts)`. -/
def cacheKeyCombined (call_type : String) (content_parts : List String) : String :=
  call_type ++ "||" ++ String.intercalate "||" content_parts

/-- `cache.py` line 49: `generate_cache_key`, parameterized by the digest
function (`hashlib.sha256(...).hexdigest()`), whose internals none of the
claims depend on: the claims are about the joined pre-image string. -/
def generate_cache_key (sha256hex : String → String)
    (call_type : String) (content_parts : List String) : String :=
  sha256hex (cacheKeyCombined call_type content_parts)

/-! ## CFG records and validation (`src/backend/analyzers/cfg_generator.py`) -/

/-- A raw (pre-validation) node dictionary: every key may be absent. -/
structure RawNode where
  id : Option String
  type : Option String
  label : Option String
  next_nodes : Option (List String)
  condition : Option (Option String)
deriving DecidableEq

/-- A validated node record (all five keys present). -/
structure NodeRec where
  id : String
  type : String
  label : String
  next_nodes : List String
  condition : Option String
deriving DecidableEq

/-- A raw (pre-validation) edge dictionary. -/
structure RawEdge where
  from_ : Option String
  to_ : Option String
  label : Option String
deriving DecidableEq

/-- A validated edge record (`from` is spelled `from_`: `from` is a Lean
keyword). -/
structure EdgeRec where
  from_ : String
  to_ : String
  label : String
deriving DecidableEq

/-- A raw (pre-validation) graph dictionary: every key may be absent. -/
structure RawCFG where
  nodes : Option (List RawNode)
  edges : Option (List RawEdge)
  complexity : Option Int
  num_paths : Option Int
  nesting_depth : Option Int
deriving DecidableEq

/-- A validated graph record as returned by `validate_cfg`. -/
structure CFGRecord where
  nodes : List NodeRec
  edges : List EdgeRec
  complexity : Int
  num_paths : Int
  nesting_depth : Int
deriving DecidableEq

/-- `cfg_generator.py` line 15: the `CFGNode` dataclass. -/
structure CFGNode where
  id : String
  type : String
  label : String
  next_nodes : List String
  condition : Option String
deriving DecidableEq

/-- `cfg_generator.py` line 26: the `CFG` dataclass. -/
structure CFG where
  nodes : List CFGNode
  edges : List EdgeRec
  complexity : Int
  num_paths : Int
  nesting_depth : Int
deriving DecidableEq

/-- `cfg_generator.py` lines 52-62: per-node default filling of
`validate_cfg` for the node at 0-based position `i`. -/
def fixNode (i : Nat) (n : RawNode) : NodeRec :=
  { id := n.id.getD ("node" ++ toString (i + 1)),
    type := n.type.getD "PROCESS",
    label := n.label.getD ("Node " ++ toString (i + 1)),
    next_nodes := n.next_nodes.getD [],
    condition := n.condition.getD none }

/-- The `for i, node in enumerate(cfg_data["nodes"])` loop, with `i`
starting at the given index. -/
def fixNodesFrom (i : Nat) : List RawNode → List NodeRec
  | [] => []
  | n :: rest => fixNode i n :: fixNodesFrom (i + 1) rest

/-- `cfg_generator.py` lines 65-71: per-edge default filling (missing
`from`/`to`/`label` become `""`). -/
def fixEdge (e : RawEdge) : EdgeRec :=
  { from_ := e.from_.getD "", to_ := e.to_.getD "", label := e.label.getD "" }

/-- `cfg_generator.py` line 37: `validate_cfg`.  Top-level defaults, then
per-node and per-edge field filling, then line 74: drop every edge whose
`from` or `to` is empty (`e.get("from") and e.get("to")` truthiness). -/
def validate_cfg (cfg_data : RawCFG) : CFGRecord :=
  { nodes := fixNodesFrom 0 (cfg_data.nodes.getD []),
    edges := ((cfg_data.edges.getD []).map fixEdge).filter
      (fun e => !decide (e.from_ = "") && !decide (e.to_ = "")),
    complexity := cfg_data.complexity.getD 1,
    num_paths := cfg_data.num_paths.getD 1,
    nesting_depth := cfg_data.nesting_depth.getD 0 }

/-- `CFGNode(**node)`: building the dataclass from a validated node
record. -/
def nodeOfRec (n : NodeRec) : CFGNode :=
  { id := n.id, type := n.type, label := n.label,
    next_nodes := n.next_nodes, condition := n.condition }

/-- `asdict(node)` (`cfg_generator.py` line 253). -/
def recOfNode (n : CFGNode) : NodeRec :=
  { id := n.id, type := n.type, label := n.label,
    next_nodes := n.next_nodes, condition := n.condition }

/-- The `CFG(nodes=[CFGNode(**node) for node in r["nodes"]], edges=...)`
construction performed on both the cache-hit path (lines 88-95) and the
fresh-response path (lines 110-117) of `pseudocode_to_cfg` (and the
corresponding lines of `flowchart_to_cfg`). -/
def cfgOfRecord (r : CFGRecord) : CFG :=
  { nodes := r.nodes.map nodeOfRec, edges := r.edges,
    complexity := r.complexity, num_paths := r.num_paths,
    nesting_depth := r.nesting_depth }

/-- `cfg_generator.py` line 250: `cfg_to_dict`. -/
def cfg_to_dict (cfg : CFG) : CFGRecord :=
  { nodes := cfg.nodes.map recOfNode, edges := cfg.edges,
    complexity := cfg.complexity, num_paths := cfg.num_paths,
    nesting_depth := cfg.nesting_depth }

/-- `cfg_generator.py` line 79: `pseudocode_to_cfg`, as a function of the
outcomes of its two collaborators: `cached` is the json-parsed record the
cache lookup returned (`none` = cache miss) and `parsed` is the outcome of
`utils.parse_json_response` on the fresh model response (`none` =
`json.JSONDecodeError`).  On a hit: validate the cached record and build
the `CFG` (lines 85-95).  On a miss with a parsable response: validate and
build (lines 104-122; the cache write does not affect the returned value).
On `JSONDecodeError`: return the hard-coded minimal fallback graph (lines
123-154).  The remaining `except Exception: raise` arm (transport faults)
re-raises and is outside this model. -/
def pseudocode_to_cfg (cached : Option RawCFG) (parsed : Option RawCFG) : CFG :=
  match cached with
  | some c => cfgOfRecord (validate_cfg c)
  | none =>
    match parsed with
    | some result => cfgOfRecord (validate_cfg result)
    | none =>
      { nodes :=
          [{ id := "node1", type := "START", label := "Start",
             next_nodes := ["node2"], condition := none },
           { id := "node2", type := "PROCESS", label := "Error parsing pseudocode",
             next_nodes := ["node3"], condition := none },
           { id := "node3", type := "END", label := "End",
             next_nodes := [], condition := none }],
        edges := [{ from_ := "node1", to_ := "node2", label := "" },
                  { from_ := "node2", to_ := "node3", label := "" }],
        complexity := 1, num_paths := 1, nesting_depth := 0 }

/-- `cfg_generator.py` line 163: `flowchart_to_cfg`, modelled exactly as
`pseudocode_to_cfg` (the two differ only in prompt handling, cache call
type, and the fallback error label, lines 210-241). -/
def flowchart_to_cfg (cached : Option RawCFG) (parsed : Option RawCFG) : CFG :=
  match cached with
  | some c => cfgOfRecord (validate_cfg c)
  | none =>
    match parsed with
    | some result => cfgOfRecord (validate_cfg result)
    | none =>
      { nodes :=
          [{ id := "node1", type := "START", label := "Start",
             next_nodes := ["node2"], condition := none },
           { id := "node2", type := "PROCESS", label := "Error parsing flowchart",
             next_nodes := ["node3"], condition := none },
           { id := "node3", type := "END", label := "End",
             next_nodes := [], condition := none }],
        edges := [{ from_ := "node1", to_ := "node2", label := "" },
                  { from_ := "node2", to_ := "node3", label := "" }],
        complexity := 1, num_paths := 1, nesting_depth := 0 }

/-! ## Helper lemmas -/

theorem sum_map_filter_split (l : List CacheRow) (p : CacheRow → Bool) :
    (l.map (fun r => r.hit_count)).sum
      = ((l.filter p).map (fun r => r.hit_count)).sum
        + ((l.filter (fun r => !p r)).map (fun r => r.hit_count)).sum := by
  induction l with
  | nil => simp
  | cons a t ih =>
    cases h : p a <;> simp [List.filter_cons, h, ih] <;> omega

theorem find?_append_right {α : Type} (p : α → Bool) (l₁ l₂ : List α)
    (h : ∀ x ∈ l₁, p x = false) : (l₁ ++ l₂).find? p = l₂.find? p := by
  induction l₁ with
  | nil => rfl
  | cons a t ih =>
    have ha : p a = false := h a (List.mem_cons_self a t)
    simp only [List.cons_append, List.find?, ha]
    exact ih (fun x hx => h x (List.mem_cons_of_mem a hx))

theorem fixNodesFrom_length (i : Nat) (l : List RawNode) :
    (fixNodesFrom i l).length = l.length := by
  induction l generalizing i with
  | nil => rfl
  | cons n rest ih => simp [fixNodesFrom, ih]

theorem fixNodesFrom_get_middle (pre : List RawNode) :
    ∀ (i : Nat) (n : RawNode) (post : List RawNode),
      (fixNodesFrom i (pre ++ n :: post)).get? pre.length
        = some (fixNode (i + pre.length) n) := by
  induction pre with
  | nil => intro i n post; simp [fixNodesFrom]
  | cons p rest ih =>
    intro i n post
    simpa [fixNodesFrom, Nat.add_assoc, Nat.add_comm 1 rest.length]
      using ih (i + 1) n post

/-! ## Claim C10: flat-separator cache keys collide structurally -/

/-- C10: the cache key construction is not injective in the
`(callType, parts)` structure: `generate_cache_key "a" ["b||c"]`,
`generate_cache_key "a||b" ["c"]` and `generate_cache_key "a" ["b", "c"]`
all hash the identical joined string `"a||b||c"` and therefore return the
same key, whatever the digest function is. -/
theorem cache_key_flat_join_collisions :
    cacheKeyCombined "a" ["b||c"] = "a||b||c"
    ∧ cacheKeyCombined "a||b" ["c"] = "a||b||c"
    ∧ cacheKeyCombined "a" ["b", "c"] = "a||b||c"
    ∧ ∀ sha256hex : String → String,
        generate_cache_key sha256hex "a" ["b||c"] = generate_cache_key sha256hex "a||b" ["c"]
        ∧ generate_cache_key sha256hex "a" ["b||c"]
            = generate_cache_key sha256hex "a" ["b", "c"] := by
  refine ⟨by decide, by decide, by decide, fun f => ⟨?_, ?_⟩⟩
  · unfold generate_cache_key
    congr 1
  · unfold generate_cache_key
    congr 1

/-! ## Claim C2: stats hit total is over all rows, not live rows -/

/-- A table whose only row is expired (`expires_at = 1 ≤ now = 2`) but
carries 5 accumulated hits. -/
def statsCexState : CacheState :=
  { rows := [{ id := 0, call_type := "pseudocode_to_cfg", content_hash := "h",
               response := "r", created_at := 0, expires_at := 1, hit_count := 5 }],
    next_id := 1 }

/-- C2 counterexample: `get_cache_stats` reports `total_cache_hits = 5`
on a table whose live rows carry 0 hits, so the claim that
`total_cache_hits` equals the sum over live entries only is false. -/
theorem cache_stats_total_hits_counterexample :
    (get_cache_stats statsCexState 2 24).total_cache_hits = 5
    ∧ liveHitSum statsCexState 2 = 0
    ∧ (get_cache_stats statsCexState 2 24).total_cache_hits ≠ liveHitSum statsCexState 2 := by
  refine ⟨by decide, by decide, by decide⟩

/-- C2 amended: `total_cache_hits` is the hit count summed over every
entry of the table, live and expired alike (`SELECT SUM(hit_count)` with
no `WHERE` clause): it equals the live sum plus the expired sum. -/
theorem cache_stats_total_hits_partition (s : CacheState) (now ttl : Nat) :
    (get_cache_stats s now ttl).total_cache_hits
      = liveHitSum s now + expiredHitSum s now := by
  exact sum_map_filter_split s.rows (fun r => decide (now < r.expires_at))

/-! ## Claim C7: set then immediate get -/

/-- C7: storing under a key and immediately (any time `t'` still inside
the TTL window) reading the same key returns the stored record; the
entry's hit count is 0 after the `set` and exactly 1 after the `get`. -/
theorem cache_set_get_roundtrip (s : CacheState) (now ttl t' : Nat)
    (ct h resp : String) (hlive : t' < now + ttl) :
    (get_cached_response (set_cached_response s now ttl ct h resp) t' ct h).1 = some resp
    ∧ hitCountOf (set_cached_response s now ttl ct h resp) ct h = some 0
    ∧ hitCountOf (get_cached_response (set_cached_response s now ttl ct h resp) t' ct h).2 ct h
        = some 1 := by
  set newRow : CacheRow :=
    { id := s.next_id, call_type := ct, content_hash := h, response := resp,
      created_at := now, expires_at := now + ttl, hit_count := 0 } with hnew
  have holdrows : ∀ x ∈ s.rows.filter
      (fun r => !decide (r.call_type = ct ∧ r.content_hash = h)), ∀ p : Prop, ∀ _ : Decidable p,
      decide (x.call_type = ct ∧ x.content_hash = h ∧ p) = false := by
    intro x hx p hp
    have := (List.mem_filter.mp hx).2
    simp only [Bool.not_eq_true', decide_eq_false_iff_not] at this ⊢
    intro hcon
    exact this ⟨hcon.1, hcon.2.1⟩
  have hfindget :
      ((set_cached_response s now ttl ct h resp).rows.find? (fun r =>
        decide (r.call_type = ct ∧ r.content_hash = h ∧ t' < r.expires_at))) = some newRow := by
    unfold set_cached_response
    rw [find?_append_right _ _ _ (fun x hx => holdrows x hx _ _)]
    simp [hnew, hlive]
  have hfindkey :
      ((set_cached_response s now ttl ct h resp).rows.find? (fun r =>
        decide (r.call_type = ct ∧ r.content_hash = h))) = some newRow := by
    unfold set_cached_response
    have : ∀ x ∈ s.rows.filter
        (fun r => !decide (r.call_type = ct ∧ r.content_hash = h)),
        decide (x.call_type = ct ∧ x.content_hash = h) = false := by
      intro x hx
      have hk := (List.mem_filter.mp hx).2
      simp only [Bool.not_eq_true', decide_eq_false_iff_not] at hk ⊢
      exact hk
    rw [find?_append_right _ _ _ this]
    simp [hnew]
  refine ⟨?_, ?_, ?_⟩
  · unfold get_cached_response
    rw [hfindget]
  · unfold hitCountOf
    rw [hfindkey]
    simp [hnew]
  · unfold get_cached_response
    rw [hfindget]
    unfold hitCountOf
    simp only
    unfold set_cached_response
    simp only [List.map_append]
    have hmapold : ∀ x ∈ (s.rows.filter
        (fun r => !decide (r.call_type = ct ∧ r.content_hash = h))).map (fun q =>
          if q.id = newRow.id then { q with hit_count := q.hit_count + 1 } else q),
        decide (x.call_type = ct ∧ x.content_hash = h) = false := by
      intro x hx
      rcases List.mem_map.mp hx with ⟨a, ha, rfl⟩
      have hkey := (List.mem_filter.mp ha).2
      simp only [Bool.not_eq_true', decide_eq_false_iff_not] at hkey
      by_cases hid : a.id = newRow.id
      · simp only [if_pos hid, decide_eq_false_iff_not]
        exact hkey
      · simp only [if_neg hid, decide_eq_false_iff_not]
        exact hkey
    rw [find?_append_right _ _ _ hmapold]
    simp [hnew]

/-- C7 witness: concrete instantiation (empty table, `ttl = 24`,
read at the write instant). -/
theorem cache_set_get_roundtrip_witness :
    (get_cached_response (set_cached_response ⟨[], 0⟩ 0 24 "pseudocode_to_cfg" "k" "resp")
        0 "pseudocode_to_cfg" "k").1 = some "resp"
    ∧ hitCountOf (set_cached_response ⟨[], 0⟩ 0 24 "pseudocode_to_cfg" "k" "resp")
        "pseudocode_to_cfg" "k" = some 0
    ∧ hitCountOf (get_cached_response
        (set_cached_response ⟨[], 0⟩ 0 24 "pseudocode_to_cfg" "k" "resp")
        0 "pseudocode_to_cfg" "k").2 "pseudocode_to_cfg" "k" = some 1 :=
  cache_set_get_roundtrip ⟨[], 0⟩ 0 24 0 "pseudocode_to_cfg" "k" "resp" (by decide)

/-! ## Claim C8: expiry semantics of get and sweep -/

/-- C8: a `get` whose key only matches expired rows returns `none` (the
rows may still physically exist); a sweep removes exactly the rows with
`expires_at ≤ now`, returning their number, and an immediate second sweep
removes nothing. -/
theorem cache_expiry_semantics :
    (∀ (s : CacheState) (now : Nat) (ct h : String),
        (∀ r ∈ s.rows, r.call_type = ct → r.content_hash = h → r.expires_at ≤ now) →
        (get_cached_response s now ct h).1 = none)
    ∧ (∀ (s : CacheState) (now : Nat),
        (cleanup_expired_cache s now).1
            = s.rows.countP (fun r => decide (r.expires_at ≤ now))
        ∧ (∀ r : CacheRow,
            r ∈ (cleanup_expired_cache s now).2.rows ↔ r ∈ s.rows ∧ now < r.expires_at)
        ∧ (cleanup_expired_cache (cleanup_expired_cache s now).2 now).1 = 0) := by
  constructor
  · intro s now ct h hexp
    unfold get_cached_response
    have : s.rows.find? (fun r =>
        decide (r.call_type = ct ∧ r.content_hash = h ∧ now < r.expires_at)) = none := by
      rw [List.find?_eq_none]
      intro x hx
      simp only [decide_eq_true_eq, not_and]
      intro h1 h2
      exact Nat.not_lt.mpr (hexp x hx h1 h2)
    rw [this]
  · intro s now
    refine ⟨?_, ?_, ?_⟩
    · simp [cleanup_expired_cache, List.countP_eq_length_filter]
    · intro r
      simp only [cleanup_expired_cache, List.mem_filter, Bool.not_eq_true',
        decide_eq_false_iff_not, Nat.not_le]
    · have hnil : (s.rows.filter (fun r => !decide (r.expires_at ≤ now))).filter
          (fun r => decide (r.expires_at ≤ now)) = [] := by
        rw [List.filter_eq_nil_iff]
        intro a ha
        have h2 := (List.mem_filter.mp ha).2
        simp only [Bool.not_eq_true', decide_eq_false_iff_not] at h2
        simp [h2]
      show ((s.rows.filter (fun r => !decide (r.expires_at ≤ now))).filter
          (fun r => decide (r.expires_at ≤ now))).length = 0
      rw [hnil]
      rfl

/-- C8 witness: one expired row (expires at 1, read at 2): the `get`
misses, the sweep removes exactly that one row, and sweeping again
removes nothing. -/
theorem cache_expiry_semantics_witness :
    (get_cached_response ⟨[⟨7, "t", "k", "r", 0, 1, 3⟩], 8⟩ 2 "t" "k").1 = none
    ∧ (cleanup_expired_cache ⟨[⟨7, "t", "k", "r", 0, 1, 3⟩], 8⟩ 2).1 = 1
    ∧ (cleanup_expired_cache
        (cleanup_expired_cache ⟨[⟨7, "t", "k", "r", 0, 1, 3⟩], 8⟩ 2).2 2).1 = 0 := by
  refine ⟨cache_expiry_semantics.1 _ 2 "t" "k" (by decide), ?_, ?_⟩
  · exact ((cache_expiry_semantics.2 ⟨[⟨7, "t", "k", "r", 0, 1, 3⟩], 8⟩ 2).1).trans (by decide)
  · exact (cache_expiry_semantics.2 ⟨[⟨7, "t", "k", "r", 0, 1, 3⟩], 8⟩ 2).2.2

/-! ## Claim C5: assembler round trip -/

theorem recOfNode_nodeOfRec (n : NodeRec) : recOfNode (nodeOfRec n) = n := rfl

theorem nodeOfRec_recOfNode (n : CFGNode) : nodeOfRec (recOfNode n) = n := rfl

/-- C5: assembling a validated record into the typed `CFG` entity and
re-serializing it with `cfg_to_dict` reproduces the same field values, in
both directions; both directions are total (they are plain functions). -/
theorem cfg_record_roundtrip :
    (∀ r : CFGRecord, cfg_to_dict (cfgOfRecord r) = r)
    ∧ (∀ g : CFG, cfgOfRecord (cfg_to_dict g) = g) := by
  constructor
  · intro r
    cases r with
    | mk nodes edges c p d =>
      have h : recOfNode ∘ nodeOfRec = id := funext recOfNode_nodeOfRec
      simp [cfg_to_dict, cfgOfRecord, List.map_map, h]
  · intro g
    cases g with
    | mk nodes edges c p d =>
      have h : nodeOfRec ∘ recOfNode = id := funext nodeOfRec_recOfNode
      simp [cfg_to_dict, cfgOfRecord, List.map_map, h]

/-! ## Claim C6: fallback graph on an unparsable response -/

/-- C6: when the collaborator response cannot be parsed into a record at
all (a cache miss followed by `json.JSONDecodeError`), both pipelines
return, without raising, exactly the fixed minimal fallback graph:
START -> PROCESS(error marker) -> END with two unconditional edges,
complexity 1, one path, nesting depth 0. -/
theorem pipeline_fallback_on_unparsable :
    pseudocode_to_cfg none none =
      { nodes :=
          [{ id := "node1", type := "START", label := "Start",
             next_nodes := ["node2"], condition := none },
           { id := "node2", type := "PROCESS", label := "Error parsing pseudocode",
             next_nodes := ["node3"], condition := none },
           { id := "node3", type := "END", label := "End",
             next_nodes := [], condition := none }],
        edges := [{ from_ := "node1", to_ := "node2", label := "" },
                  { from_ := "node2", to_ := "node3", label := "" }],
        complexity := 1, num_paths := 1, nesting_depth := 0 }
    ∧ flowchart_to_cfg none none =
      { nodes :=
          [{ id := "node1", type := "START", label := "Start",
             next_nodes := ["node2"], condition := none },
           { id := "node2", type := "PROCESS", label := "Error parsing flowchart",
             next_nodes := ["node3"], condition := none },
           { id := "node3", type := "END", label := "End",
             next_nodes := [], condition := none }],
        edges := [{ from_ := "node1", to_ := "node2", label := "" },
                  { from_ := "node2", to_ := "node3", label := "" }],
        complexity := 1, num_paths := 1, nesting_depth := 0 } :=
  ⟨rfl, rfl⟩

/-! ## Claim C1: no structural (dangling-edge) check exists -/

/-- A validated-shape record whose single edge points at the node id
`"zzz"`, which no node carries. -/
def danglingRaw : RawCFG :=
  { nodes := some [{ id := some "a", type := some "PROCESS", label := some "A",
                     next_nodes := some [], condition := some none }],
    edges := some [{ from_ := some "a", to_ := some "zzz", label := some "" }],
    complexity := some 1, num_paths := some 1, nesting_depth := some 0 }

/-- C1 counterexample: on the cache-hit path, a record with an edge whose
`to` id occurs in no node is assembled successfully and returned with the
dangling edge intact — there is no `StructuralError`; the claim that
assembly fails on such records is false. -/
theorem cfg_assembly_dangling_edge_counterexample :
    (pseudocode_to_cfg (some danglingRaw) none).edges
        = [{ from_ := "a", to_ := "zzz", label := "" }]
    ∧ ((pseudocode_to_cfg (some danglingRaw) none).nodes.map (fun n => n.id)) = ["a"]
    ∧ ¬ ("zzz" ∈ ((pseudocode_to_cfg (some danglingRaw) none).nodes.map (fun n => n.id))) := by
  refine ⟨by decide, by decide, by decide⟩

/-- C1 amended: the CFG construction on both the cache-hit and the
fresh-response path never fails and performs no reference check: it
returns every edge of the validated record verbatim, dangling or not. -/
theorem cfg_assembly_total_preserves_edges (c r : RawCFG) :
    (pseudocode_to_cfg (some c) none).edges = (validate_cfg c).edges
    ∧ (pseudocode_to_cfg none (some r)).edges = (validate_cfg r).edges
    ∧ (flowchart_to_cfg (some c) none).edges = (validate_cfg c).edges
    ∧ (flowchart_to_cfg none (some r)).edges = (validate_cfg r).edges :=
  ⟨rfl, rfl, rfl, rfl⟩

/-! ## Claim C4: validator invariants (id uniqueness fails) -/

/-- A raw record whose first node has no `id` (so it is assigned
`"node1"`) and whose second node explicitly carries the id `"node1"`. -/
def duplicateIdRaw : RawCFG :=
  { nodes := some [{ id := none, type := none, label := none,
                     next_nodes := none, condition := none },
                   { id := some "node1", type := some "PROCESS", label := some "B",
                     next_nodes := some [], condition := some none }],
    edges := some [], complexity := some 1, num_paths := some 1,
    nesting_depth := some 0 }

/-- C4 counterexample: `validate_cfg` returns a record whose node ids are
not pairwise distinct (the default id assigned at position 0 collides
with an explicit id), so the claimed uniqueness invariant is false. -/
theorem validate_cfg_duplicate_ids_counterexample :
    ((validate_cfg duplicateIdRaw).nodes.map (fun n => n.id)) = ["node1", "node1"]
    ∧ ¬ ((validate_cfg duplicateIdRaw).nodes.map (fun n => n.id)).Nodup := by
  refine ⟨by decide, by decide⟩

/-- C4 amended: `validate_cfg` is total and its result has every node
field present (by type), every surviving edge with non-empty `from` and
`to`, and one output node per input node — but node ids need not be
pairwise distinct. -/
theorem validate_cfg_invariants (raw : RawCFG) :
    (∀ e ∈ (validate_cfg raw).edges, e.from_ ≠ "" ∧ e.to_ ≠ "")
    ∧ (validate_cfg raw).nodes.length = (raw.nodes.getD []).length := by
  constructor
  · intro e he
    have hmem := List.mem_filter.mp he
    have hp := hmem.2
    simp only [Bool.and_eq_true, Bool.not_eq_true', decide_eq_false_iff_not] at hp
    exact hp
  · exact fixNodesFrom_length 0 _

/-- C4 witness: on a concrete record the surviving edge has non-empty
endpoints and the node count is preserved. -/
theorem validate_cfg_invariants_witness :
    (({ from_ := "a", to_ := "b", label := "" } : EdgeRec).from_ ≠ ""
      ∧ ({ from_ := "a", to_ := "b", label := "" } : EdgeRec).to_ ≠ "")
    ∧ (validate_cfg
        { nodes := some [{ id := some "a", type := some "START", label := some "A",
                           next_nodes := some [], condition := some none }],
          edges := some [{ from_ := some "a", to_ := some "b", label := some "" }],
          complexity := some 1, num_paths := some 1,
          nesting_depth := some 0 }).nodes.length = 1 :=
  ⟨(validate_cfg_invariants
      { nodes := some [{ id := some "a", type := some "START", label := some "A",
                         next_nodes := some [], condition := some none }],
        edges := some [{ from_ := some "a", to_ := some "b", label := some "" }],
        complexity := some 1, num_paths := some 1,
        nesting_depth := some 0 }).1 _ (by decide),
   (validate_cfg_invariants
      { nodes := some [{ id := some "a", type := some "START", label := some "A",
                         next_nodes := some [], condition := some none }],
        edges := some [{ from_ := some "a", to_ := some "b", label := some "" }],
        complexity := some 1, num_paths := some 1,
        nesting_depth := some 0 }).2.trans (by decide)⟩

/-! ## Claim C9: validator default-filling behavior -/

/-- C9: `validate_cfg` of the empty record is the all-defaults record; a
node missing its id at 0-based position `i` is assigned `"node" + (i+1)`;
a record with one edge missing `to` has exactly that edge dropped while
every other (complete) node and edge is kept unchanged and in order. -/
theorem validate_cfg_defaults :
    validate_cfg { nodes := none, edges := none, complexity := none,
                   num_paths := none, nesting_depth := none }
      = { nodes := [], edges := [], complexity := 1, num_paths := 1, nesting_depth := 0 }
    ∧ (∀ (pre post : List RawNode) (n : RawNode) (eo : Option (List RawEdge))
          (co po ne : Option Int),
        n.id = none →
        (((validate_cfg (RawCFG.mk (some (pre ++ n :: post)) eo co po ne)).nodes.get?
              pre.length).map (fun m => m.id))
          = some ("node" ++ toString (pre.length + 1)))
    ∧ (∀ (no : Option (List RawNode)) (pre post : List RawEdge) (e : RawEdge)
          (co po ne : Option Int),
        e.to_ = none →
        (∀ d ∈ pre ++ post, d.from_.isSome ∧ d.to_.isSome ∧ d.label.isSome
            ∧ d.from_ ≠ some "" ∧ d.to_ ≠ some "") →
        (validate_cfg (RawCFG.mk no (some (pre ++ e :: post)) co po ne)).edges
          = (pre ++ post).map fixEdge) := by
  refine ⟨rfl, ?_, ?_⟩
  · intro pre post n eo co po ne hid
    show (((fixNodesFrom 0 (pre ++ n :: post)).get? pre.length).map (fun m => m.id)) = _
    rw [fixNodesFrom_get_middle]
    simp [fixNode, hid, Nat.zero_add]
  · intro no pre post e co po ne hto hcomplete
    show (((pre ++ e :: post).map fixEdge).filter
        (fun d => !decide (d.from_ = "") && !decide (d.to_ = ""))) = _
    have hkeep : ∀ l : List RawEdge,
        (∀ d ∈ l, d.from_.isSome ∧ d.to_.isSome ∧ d.label.isSome
            ∧ d.from_ ≠ some "" ∧ d.to_ ≠ some "") →
        ((l.map fixEdge).filter
          (fun d => !decide (d.from_ = "") && !decide (d.to_ = ""))) = l.map fixEdge := by
      intro l hl
      rw [List.filter_eq_self]
      intro d hd
      rcases List.mem_map.mp hd with ⟨a, ha, rfl⟩
      rcases hl a ha with ⟨h1, h2, _, h4, h5⟩
      rcases Option.isSome_iff_exists.mp h1 with ⟨x, hx⟩
      rcases Option.isSome_iff_exists.mp h2 with ⟨y, hy⟩
      have hxne : x ≠ "" := by
        intro hcon
        exact h4 (by rw [hx, hcon])
      have hyne : y ≠ "" := by
        intro hcon
        exact h5 (by rw [hy, hcon])
      simp [fixEdge, hx, hy, hxne, hyne]
    have hdrop : ((!decide ((fixEdge e).from_ = "")) && (!decide ((fixEdge e).to_ = ""))) = false := by
      have hempty : (fixEdge e).to_ = "" := by simp [fixEdge, hto]
      simp [hempty]
    rw [List.map_append, List.map_cons, List.filter_append, List.filter_cons, hdrop]
    simp only [Bool.false_eq_true, if_false]
    rw [hkeep pre (fun d hd => hcomplete d (List.mem_append_left _ hd)),
        hkeep post (fun d hd => hcomplete d (List.mem_append_right _ hd)),
        ← List.map_append]

/-- C9 witness: a node with no id at position 4 is assigned `"node5"`,
and dropping the one incomplete edge keeps the two complete ones in
order. -/
theorem validate_cfg_defaults_witness :
    (((validate_cfg (RawCFG.mk (some
          [RawNode.mk (some "n1") none none none none,
           RawNode.mk (some "n2") none none none none,
           RawNode.mk (some "n3") none none none none,
           RawNode.mk (some "n4") none none none none,
           RawNode.mk none none none none none])
        none none none none)).nodes.get? 4).map (fun m => m.id)) = some "node5"
    ∧ (validate_cfg (RawCFG.mk none (some
          [RawEdge.mk (some "a") (some "b") (some "x"),
           RawEdge.mk (some "a") none (some ""),
           RawEdge.mk (some "b") (some "c") (some "y")])
        none none none)).edges
      = [EdgeRec.mk "a" "b" "x", EdgeRec.mk "b" "c" "y"] := by
  constructor
  · exact (validate_cfg_defaults.2.1
      [RawNode.mk (some "n1") none none none none,
       RawNode.mk (some "n2") none none none none,
       RawNode.mk (some "n3") none none none none,
       RawNode.mk (some "n4") none none none none]
      [] (RawNode.mk none none none none none)
      none none none none rfl).trans (by decide)
  · exact (validate_cfg_defaults.2.2 none
      [RawEdge.mk (some "a") (some "b") (some "x")]
      [RawEdge.mk (some "b") (some "c") (some "y")]
      (RawEdge.mk (some "a") none (some ""))
      none none none rfl (by decide)).trans (by decide)

/-! ## Normalizer (`cache.py` line 21: `normalize_code`)

The seven steps of `normalize_code` are embedded as scanners over
`List Char`, one per regex/string operation, in the source's order:
`re.sub(r'//.*$', '', ., MULTILINE)`, `re.sub(r'#.*$', '', ., MULTILINE)`,
`re.sub(r'/\\*.*?\\*/', '', ., DOTALL)`, `.replace(';', '')`,
`re.sub(r'\\s+', ' ', .)`, `.strip()`, `.lower()`.  The character class
`\\s` is modelled by its ASCII members (space, tab, newline, carriage
return, vertical tab, form feed) and `.lower()` by its action on ASCII,
which is the scope all claims about pseudocode normalization live in. -/

/-- ASCII members of Python's `\\s` (also the characters `.strip()`
removes). -/
def isSpaceChar (c : Char) : Bool :=
  c.toNat = 32 || c.toNat = 9 || c.toNat = 10 || c.toNat = 13
    || c.toNat = 11 || c.toNat = 12

/-- ASCII `.lower()`: `A`..`Z` shift by 32, everything else unchanged. -/
def lowerChar (c : Char) : Char :=
  if h : 65 ≤ c.toNat ∧ c.toNat ≤ 90 then
    Char.ofNatAux (c.toNat + 32) (Or.inl (by omega))
  else c

/-- Step 1, `re.sub(r'//.*$', '', code, flags=re.MULTILINE)`, as a
left-to-right scan: everything from each `//` to the end of its line is
removed (the newline itself is kept).  The Bool is "currently inside a
`//` comment". -/
def rmSlashGo : Bool → List Char → List Char
  | _, [] => []
  | true, c :: rest => if c = '\n' then c :: rmSlashGo false rest else rmSlashGo true rest
  | false, c :: [] => [c]
  | false, c :: c2 :: rest =>
      if c = '/' ∧ c2 = '/' then rmSlashGo true rest
      else c :: rmSlashGo false (c2 :: rest)

/-- Step 2, `re.sub(r'#.*$', '', text, flags=re.MULTILINE)`: everything
from each `#` to the end of its line is removed. -/
def rmHashGo : Bool → List Char → List Char
  | _, [] => []
  | true, c :: rest => if c = '\n' then c :: rmHashGo false rest else rmHashGo true rest
  | false, c :: rest => if c = '#' then rmHashGo true rest else c :: rmHashGo false rest

/-- The suffix following the first `*/` (the non-greedy `.*?\\*/` match),
if one occurs. -/
def dropToClose : List Char → Option (List Char)
  | [] => none
  | _ :: [] => none
  | c :: c2 :: rest => if c = '*' ∧ c2 = '/' then some rest else dropToClose (c2 :: rest)

/-- Step 3, `re.sub(r'/\\*.*?\\*/', '', text, flags=re.DOTALL)`: each
leftmost `/*` is paired with the nearest following `*/` and the span is
removed; scanning continues after the removed span (`re.sub` does not
re-scan the seam); a `/*` with no following `*/` matches nothing.  Fuel
recursion (fuel `≥` length always suffices: each step consumes at least
one character). -/
def rmBlockF : Nat → List Char → List Char
  | 0, s => s
  | _ + 1, [] => []
  | _ + 1, c :: [] => [c]
  | f + 1, c :: c2 :: rest =>
      if c = '/' ∧ c2 = '*' then
        match dropToClose rest with
        | some rest2 => rmBlockF f rest2
        | none => c :: c2 :: rest
      else c :: rmBlockF f (c2 :: rest)

def rmBlock (s : List Char) : List Char := rmBlockF s.length s

/-- Step 5, `re.sub(r'\\s+', ' ', text)`: each maximal whitespace run
becomes one space.  The Bool is "inside a whitespace run whose space has
already been emitted". -/
def collapseGo : Bool → List Char → List Char
  | _, [] => []
  | b, c :: rest =>
      if isSpaceChar c then
        if b then collapseGo true rest else ' ' :: collapseGo true rest
      else c :: collapseGo false rest

/-- Step 6, `.strip()`. -/
def stripChars (l : List Char) : List Char :=
  ((l.dropWhile isSpaceChar).reverse.dropWhile isSpaceChar).reverse

/-- Step 7, `.lower()`. -/
def lowerChars (l : List Char) : List Char := l.map lowerChar

/-- `cache.py` line 21: `normalize_code`, on character lists, applying
the seven steps in the source's order (step 4 is `.replace(';', '')`). -/
def normalizeChars (code : List Char) : List Char :=
  lowerChars (stripChars (collapseGo false
    ((rmBlock (rmHashGo false (rmSlashGo false code))).filter
      (fun c => !decide (c = ';')))))

/-- `cache.py` line 21: `normalize_code`. -/
def normalize_code (code : String) : String :=
  String.mk (normalizeChars code.data)

/-! ## Token documents: the claim's "differ only in ..." relation

A document is a list of tokens; rendering concatenates them.  Two
documents with the same skeleton whose corresponding tokens differ only
in comment text, in whitespace-run length, in letter case of code text,
or by inserted/dropped semicolon tokens render exactly the pairs of
strings the claim quantifies over. -/

inductive Tok where
  | txt (s : List Char)
  | lcom (t : List Char)
  | hcom (t : List Char)
  | bcom (t : List Char)
  | semi
  | wsp (c : Char) (n : Nat)
deriving DecidableEq

/-- Rendering: `lcom t` is `"//" ++ t`, `hcom t` is `"#" ++ t`, `bcom t`
is `"/*" ++ t ++ "*/"`, `wsp c n` is `n + 1` copies of `c`. -/
def rTok : Tok → List Char
  | Tok.txt s => s
  | Tok.lcom t => '/' :: '/' :: t
  | Tok.hcom t => '#' :: t
  | Tok.bcom t => '/' :: '*' :: (t ++ ['*', '/'])
  | Tok.semi => [';']
  | Tok.wsp c n => List.replicate (n + 1) c

def render : List Tok → List Char
  | [] => []
  | t :: rest => rTok t ++ render rest

/-- Tokens that differ only in what the claim allows: comment text may
change freely, code text may change letter case, a whitespace run may
change its length (same whitespace character), everything else is
equal. -/
inductive TokSim : Tok → Tok → Prop
  | txt (s1 s2 : List Char) : s1.map lowerChar = s2.map lowerChar →
      TokSim (Tok.txt s1) (Tok.txt s2)
  | lcom (t1 t2 : List Char) : TokSim (Tok.lcom t1) (Tok.lcom t2)
  | hcom (t1 t2 : List Char) : TokSim (Tok.hcom t1) (Tok.hcom t2)
  | bcom (t1 t2 : List Char) : TokSim (Tok.bcom t1) (Tok.bcom t2)
  | semi : TokSim Tok.semi Tok.semi
  | wsp (c : Char) (n m : Nat) : TokSim (Tok.wsp c n) (Tok.wsp c m)

/-- Documents that differ only in the allowed ways; statement-terminator
semicolons may additionally be inserted or dropped. -/
inductive DocSim : List Tok → List Tok → Prop
  | nil : DocSim [] []
  | cons {a b : Tok} {d1 d2 : List Tok} :
      TokSim a b → DocSim d1 d2 → DocSim (a :: d1) (b :: d2)
  | semiL {d1 d2 : List Tok} : DocSim d1 d2 → DocSim (Tok.semi :: d1) d2
  | semiR {d1 d2 : List Tok} : DocSim d1 d2 → DocSim d1 (Tok.semi :: d2)

/-- Contains `//`. -/
def hasDS : List Char → Bool
  | [] => false
  | _ :: [] => false
  | c :: c2 :: rest => (decide (c = '/') && decide (c2 = '/')) || hasDS (c2 :: rest)

/-- Contains `*/`. -/
def hasClose : List Char → Bool
  | [] => false
  | _ :: [] => false
  | c :: c2 :: rest => (decide (c = '*') && decide (c2 = '/')) || hasClose (c2 :: rest)

/-- The prefix of a line-comment text before its first `//` (what step 1
leaves of a `#` comment's text). -/
def cutDS : List Char → List Char
  | [] => []
  | c :: [] => [c]
  | c :: c2 :: rest => if c = '/' ∧ c2 = '/' then [] else c :: cutDS (c2 :: rest)

/-- Definitional wellformedness of a token, nothing beyond what makes it
a comment/whitespace/code token at all: line-comment text stays on its
line, block-comment text does not contain the closer that would end the
comment early, whitespace runs consist of whitespace, code text is a
nonempty run of non-whitespace. -/
def tokWF : Tok → Bool
  | Tok.txt s => !decide (s = []) && s.all (fun c => !isSpaceChar c)
  | Tok.lcom t => !decide ('\n' ∈ t)
  | Tok.hcom t => !decide ('\n' ∈ t)
  | Tok.bcom t => !hasClose t
  | Tok.semi => true
  | Tok.wsp c _ => isSpaceChar c

/-- The next token starts a new line (or the document ends): what must
follow a line comment, since a line comment extends to the end of its
line by definition. -/
def nlNext : List Tok → Bool
  | [] => true
  | Tok.wsp c _ :: _ => decide (c = '\n')
  | _ => false

def adjWF : Tok → List Tok → Bool
  | Tok.lcom _, rest => nlNext rest
  | Tok.hcom _, rest => nlNext rest
  | _, _ => true

/-- A wellformed tokenization: exactly the definitional constraints under
which the claim's "two strings differing only in ..." is read. -/
def wfDoc : List Tok → Bool
  | [] => true
  | t :: rest => tokWF t && adjWF t rest && wfDoc rest

/-- Code characters of the strengthened (amended) wellformedness: plain
code, free of the comment-marker characters, semicolons and
whitespace. -/
def txtCharOK (c : Char) : Bool :=
  !isSpaceChar c && !decide (c = '/') && !decide (c = '*')
    && !decide (c = '#') && !decide (c = ';')

def tokWFS : Tok → Bool
  | Tok.txt s => !decide (s = []) && s.all txtCharOK
  | Tok.lcom t => !decide ('\n' ∈ t)
  | Tok.hcom t => !decide ('\n' ∈ t)
  | Tok.bcom t => !hasClose t && !hasDS t && !decide ('#' ∈ t)
  | Tok.semi => true
  | Tok.wsp c _ => isSpaceChar c

/-- The next token does not begin with a `/` (it is not a `//` comment or
a block comment). -/
def notComStart : List Tok → Bool
  | Tok.lcom _ :: _ => false
  | Tok.bcom _ :: _ => false
  | _ => true

def adjWFS : Tok → List Tok → Bool
  | Tok.lcom _, rest => nlNext rest
  | Tok.hcom _, rest => nlNext rest
  | Tok.bcom _, rest => notComStart rest
  | _, _ => true

/-- Strengthened wellformedness for the amended claim: additionally,
block-comment text contains no line-comment marker (`//` or `#`), code
text contains no comment-marker characters, and a block comment is not
immediately followed by a `/`-initial token (which would glue `*/` and
`//`/`/*` into a spurious `//`). -/
def wfsDoc : List Tok → Bool
  | [] => true
  | t :: rest => tokWFS t && adjWFS t rest && wfsDoc rest

/-! Document-level counterparts of pipeline steps 1-4. -/

/-- Step 1 on documents: `//` comments vanish; the text of a `#` comment
is cut at its first `//` (step 1 runs before step 2). -/
def slashPass : List Tok → List Tok
  | [] => []
  | Tok.lcom _ :: rest => slashPass rest
  | Tok.hcom t :: rest => Tok.hcom (cutDS t) :: slashPass rest
  | t :: rest => t :: slashPass rest

/-- Step 2 on documents: `#` comments vanish. -/
def hashPass : List Tok → List Tok
  | [] => []
  | Tok.hcom _ :: rest => hashPass rest
  | t :: rest => t :: hashPass rest

/-- Step 3 on documents: block comments vanish. -/
def blockPass : List Tok → List Tok
  | [] => []
  | Tok.bcom _ :: rest => blockPass rest
  | t :: rest => t :: blockPass rest

/-- Step 4 on documents: semicolon tokens vanish. -/
def semiPass : List Tok → List Tok
  | [] => []
  | Tok.semi :: rest => semiPass rest
  | t :: rest => t :: semiPass rest

/-- All four passes at once: only code and whitespace remain. -/
def eraseTW : List Tok → List Tok
  | [] => []
  | Tok.txt s :: rest => Tok.txt s :: eraseTW rest
  | Tok.wsp c n :: rest => Tok.wsp c n :: eraseTW rest
  | _ :: rest => eraseTW rest

/-- Step 5 on comment-free documents: code text verbatim, each maximal
block of whitespace runs as one space. -/
def squashGo : Bool → List Tok → List Char
  | _, [] => []
  | _, Tok.txt s :: rest => s ++ squashGo false rest
  | b, Tok.wsp _ _ :: rest => if b then squashGo true rest else ' ' :: squashGo true rest
  | b, _ :: rest => squashGo b rest

example : normalize_code "x /* // */ y" = "x /*" := by decide
example : normalize_code "x /* z */ y" = "x y" := by decide
example : normalize_code "return TRUE;" = normalize_code "return true" := by decide
example : normalize_code "a // c\nb" = "a b" := by decide
example : normalize_code "a # c\nb" = "a b" := by decide

/-! ## Scanner lemmas: step 1 (`//` removal) -/

theorem rmSlashGo_nil (b : Bool) : rmSlashGo b [] = [] := by cases b <;> rfl

theorem rmSlashGo_true_cons (c : Char) (l : List Char) :
    rmSlashGo true (c :: l) =
      if c = '\n' then c :: rmSlashGo false l else rmSlashGo true l := rfl

theorem rmSlashGo_false_single (c : Char) : rmSlashGo false [c] = [c] := rfl

theorem rmSlashGo_false_pair (c c2 : Char) (l : List Char) :
    rmSlashGo false (c :: c2 :: l) =
      if c = '/' ∧ c2 = '/' then rmSlashGo true l
      else c :: rmSlashGo false (c2 :: l) := rfl

theorem rmSlashGo_false_cons_ne (c : Char) (l : List Char) (hc : ¬(c = '/')) :
    rmSlashGo false (c :: l) = c :: rmSlashGo false l := by
  cases l with
  | nil => rfl
  | cons c2 l' =>
    rw [rmSlashGo_false_pair, if_neg]
    rintro ⟨h1, _⟩
    exact hc h1

theorem rmSlashGo_true_append (t r : List Char) (ht : ¬('\n' ∈ t)) :
    rmSlashGo true (t ++ r) = rmSlashGo true r := by
  induction t with
  | nil => rfl
  | cons c t' ih =>
    rw [List.cons_append, rmSlashGo_true_cons, if_neg]
    · exact ih (fun hm => ht (List.mem_cons_of_mem c hm))
    · intro hc
      exact ht (by rw [hc]; exact List.mem_cons_self _ _)

theorem rmSlashGo_true_eq_false (r : List Char)
    (hr : r = [] ∨ r.head? = some '\n') : rmSlashGo true r = rmSlashGo false r := by
  rcases hr with rfl | hh
  · rfl
  · cases r with
    | nil => rfl
    | cons c l =>
      have hc : c = '\n' := by simpa using hh
      subst hc
      rw [rmSlashGo_true_cons, if_pos rfl, rmSlashGo_false_cons_ne _ _ (by decide)]

theorem hasDS_cons2 (c c2 : Char) (l : List Char) :
    hasDS (c :: c2 :: l) =
      ((decide (c = '/') && decide (c2 = '/')) || hasDS (c2 :: l)) := rfl

theorem hasClose_cons2 (c c2 : Char) (l : List Char) :
    hasClose (c :: c2 :: l) =
      ((decide (c = '*') && decide (c2 = '/')) || hasClose (c2 :: l)) := rfl

theorem hasDS_eq_false : ∀ (s : List Char), (∀ c ∈ s, ¬(c = '/')) → hasDS s = false
  | [], _ => rfl
  | [_], _ => rfl
  | c :: c2 :: s', h => by
    rw [hasDS_cons2,
      hasDS_eq_false (c2 :: s') (fun x hx => h x (List.mem_cons_of_mem c hx))]
    have h1 : ¬(c = '/') := h c (List.mem_cons_self _ _)
    simp [h1]

theorem rmSlashGo_false_append : ∀ (s r : List Char), hasDS s = false →
    (r.head? = some '/' → ¬(s.getLast? = some '/')) →
    rmSlashGo false (s ++ r) = s ++ rmSlashGo false r
  | [], _, _, _ => rfl
  | [c], r, _, hseam => by
    cases r with
    | nil => simp [rmSlashGo_false_single, rmSlashGo_nil]
    | cons c2 r' =>
      rw [List.singleton_append, rmSlashGo_false_pair, if_neg]
      · rfl
      · rintro ⟨h1, h2⟩
        exact hseam (by simp [h2]) (by simp [h1])
  | c :: c2 :: s', r, hs, hseam => by
    rw [hasDS_cons2, Bool.or_eq_false_iff] at hs
    have hpair : ¬(c = '/' ∧ c2 = '/') := by
      rintro ⟨rfl, rfl⟩
      simp at hs
    have hseam' : r.head? = some '/' → ¬((c2 :: s').getLast? = some '/') := by
      intro hh
      have := hseam hh
      rwa [List.getLast?_cons_cons] at this
    rw [List.cons_append, List.cons_append, rmSlashGo_false_pair, if_neg hpair,
      ← List.cons_append, rmSlashGo_false_append (c2 :: s') r hs.2 hseam']
    rfl

theorem getLast?_no_slash (s : List Char) (h : ∀ c ∈ s, ¬(c = '/')) :
    ¬(s.getLast? = some '/') := by
  intro hl
  exact h '/' (List.mem_of_getLast?_eq_some hl) rfl

theorem rmSlashGo_false_append_clean (s r : List Char) (h : ∀ c ∈ s, ¬(c = '/')) :
    rmSlashGo false (s ++ r) = s ++ rmSlashGo false r :=
  rmSlashGo_false_append s r (hasDS_eq_false s h) (fun _ => getLast?_no_slash s h)

theorem cutDS_nil : cutDS [] = [] := rfl

theorem cutDS_single (c : Char) : cutDS [c] = [c] := rfl

theorem cutDS_pair (c c2 : Char) (l : List Char) :
    cutDS (c :: c2 :: l) =
      if c = '/' ∧ c2 = '/' then [] else c :: cutDS (c2 :: l) := rfl

theorem cutDS_mem : ∀ (t : List Char) (c : Char), c ∈ cutDS t → c ∈ t
  | [], _, h => h
  | [_], _, h => h
  | a :: a2 :: t', c, h => by
    rw [cutDS_pair] at h
    by_cases hp : a = '/' ∧ a2 = '/'
    · rw [if_pos hp] at h
      exact absurd h (List.not_mem_nil c)
    · rw [if_neg hp] at h
      rcases List.mem_cons.mp h with rfl | h2
      · exact List.mem_cons_self _ _
      · exact List.mem_cons_of_mem a (cutDS_mem (a2 :: t') c h2)

/-- Step 1 over one line-comment text followed by a line end: the text is
cut at its first `//` and scanning resumes at the line end. -/
theorem rmSlashGo_false_line : ∀ (t r : List Char), ¬('\n' ∈ t) →
    (r = [] ∨ r.head? = some '\n') →
    rmSlashGo false (t ++ r) = cutDS t ++ rmSlashGo false r
  | [], r, _, _ => rfl
  | [c], r, _, hr => by
    cases r with
    | nil => simp [rmSlashGo_false_single, rmSlashGo_nil, cutDS_single]
    | cons c2 r' =>
      have hc2 : c2 = '\n' := by
        rcases hr with h | h
        · exact absurd h (List.cons_ne_nil c2 r')
        · simpa using h
      rw [List.singleton_append, rmSlashGo_false_pair, if_neg, cutDS_single]
      · rfl
      · rintro ⟨_, h2⟩
        rw [hc2] at h2
        exact absurd h2 (by decide)
  | c :: c2 :: t', r, ht, hr => by
    rw [cutDS_pair, List.cons_append, List.cons_append, rmSlashGo_false_pair]
    by_cases hp : c = '/' ∧ c2 = '/'
    · rw [if_pos hp, if_pos hp, rmSlashGo_true_append t' r
        (fun hm => ht (List.mem_cons_of_mem c (List.mem_cons_of_mem c2 hm))),
        rmSlashGo_true_eq_false r hr]
      rfl
    · rw [if_neg hp, if_neg hp, ← List.cons_append,
        rmSlashGo_false_line (c2 :: t') r
          (fun hm => ht (List.mem_cons_of_mem c hm)) hr]
      rfl

/-! ## Wellformedness extraction helpers -/

theorem wfsDoc_cons (t : Tok) (rest : List Tok) (h : wfsDoc (t :: rest) = true) :
    tokWFS t = true ∧ adjWFS t rest = true ∧ wfsDoc rest = true := by
  have h' : (tokWFS t && adjWFS t rest && wfsDoc rest) = true := h
  simp only [Bool.and_eq_true] at h'
  exact ⟨h'.1.1, h'.1.2, h'.2⟩

theorem tokWFS_txt (s : List Char) (h : tokWFS (Tok.txt s) = true) :
    ¬(s = []) ∧ ∀ c ∈ s, txtCharOK c = true := by
  have h' : (!decide (s = []) && s.all txtCharOK) = true := h
  simp only [Bool.and_eq_true, Bool.not_eq_true', decide_eq_false_iff_not,
    List.all_eq_true] at h'
  exact h'

theorem txtCharOK_props (c : Char) (h : txtCharOK c = true) :
    isSpaceChar c = false ∧ ¬(c = '/') ∧ ¬(c = '*') ∧ ¬(c = '#') ∧ ¬(c = ';') := by
  have h' : (!isSpaceChar c && !decide (c = '/') && !decide (c = '*')
      && !decide (c = '#') && !decide (c = ';')) = true := h
  simp only [Bool.and_eq_true, Bool.not_eq_true', decide_eq_false_iff_not] at h'
  exact ⟨h'.1.1.1.1, h'.1.1.1.2, h'.1.1.2, h'.1.2, h'.2⟩

theorem tokWFS_lcom (t : List Char) (h : tokWFS (Tok.lcom t) = true) : ¬('\n' ∈ t) := by
  have h' : (!decide ('\n' ∈ t)) = true := h
  simpa using h'

theorem tokWFS_hcom (t : List Char) (h : tokWFS (Tok.hcom t) = true) : ¬('\n' ∈ t) := by
  have h' : (!decide ('\n' ∈ t)) = true := h
  simpa using h'

theorem tokWFS_bcom (t : List Char) (h : tokWFS (Tok.bcom t) = true) :
    hasClose t = false ∧ hasDS t = false ∧ ¬('#' ∈ t) := by
  have h' : (!hasClose t && !hasDS t && !decide ('#' ∈ t)) = true := h
  simp only [Bool.and_eq_true, Bool.not_eq_true', decide_eq_false_iff_not] at h'
  exact ⟨h'.1.1, h'.1.2, h'.2⟩

theorem tokWFS_wsp (c : Char) (n : Nat) (h : tokWFS (Tok.wsp c n) = true) :
    isSpaceChar c = true := h

theorem isSpaceChar_not_slash (c : Char) (h : isSpaceChar c = true) : ¬(c = '/') := by
  rintro rfl
  exact absurd h (by decide)

theorem isSpaceChar_not_hash (c : Char) (h : isSpaceChar c = true) : ¬(c = '#') := by
  rintro rfl
  exact absurd h (by decide)

theorem isSpaceChar_not_semi (c : Char) (h : isSpaceChar c = true) : ¬(c = ';') := by
  rintro rfl
  exact absurd h (by decide)

/-- `nlNext rest` means `render rest` is empty or starts with a newline. -/
theorem render_head_of_nlNext (rest : List Tok) (h : nlNext rest = true) :
    render rest = [] ∨ (render rest).head? = some '\n' := by
  cases rest with
  | nil => exact Or.inl rfl
  | cons t r' =>
    cases t with
    | wsp c n =>
      have hc : c = '\n' := by simpa [nlNext] using h
      subst hc
      right
      show (List.replicate (n + 1) '\n' ++ render r').head? = some '\n'
      rw [List.replicate_succ]
      rfl
    | txt s => exact absurd h (by simp [nlNext])
    | lcom t => exact absurd h (by simp [nlNext])
    | hcom t => exact absurd h (by simp [nlNext])
    | bcom t => exact absurd h (by simp [nlNext])
    | semi => exact absurd h (by simp [nlNext])

/-- After a block comment (`notComStart` successor), the rendered rest
never starts with `/`. -/
theorem render_head_not_slash (rest : List Tok) (hwf : wfsDoc rest = true)
    (hnc : notComStart rest = true) : ¬((render rest).head? = some '/') := by
  cases rest with
  | nil => simp [render]
  | cons t r' =>
    cases t with
    | txt s =>
      rcases tokWFS_txt s (wfsDoc_cons _ _ hwf).1 with ⟨hne, hall⟩
      cases s with
      | nil => exact absurd rfl hne
      | cons c s' =>
        show ((c :: s') ++ render r').head? = some '/' → False
        rw [List.cons_append]
        intro hh
        have hc : c = '/' := by simpa using hh
        exact (txtCharOK_props c (hall c (List.mem_cons_self _ _))).2.1 hc
    | lcom t => exact absurd hnc (by simp [notComStart])
    | bcom t => exact absurd hnc (by simp [notComStart])
    | hcom t =>
      show (('#' :: t) ++ render r').head? = some '/' → False
      rw [List.cons_append]
      intro hh
      simp only [List.head?_cons, Option.some.injEq] at hh
      exact absurd hh (by decide)
    | semi =>
      show ((';' :: []) ++ render r').head? = some '/' → False
      rw [List.cons_append]
      intro hh
      simp only [List.head?_cons, Option.some.injEq] at hh
      exact absurd hh (by decide)
    | wsp c n =>
      have hc := tokWFS_wsp c n (wfsDoc_cons _ _ hwf).1
      show (List.replicate (n + 1) c ++ render r').head? = some '/' → False
      rw [List.replicate_succ, List.cons_append]
      intro hh
      exact isSpaceChar_not_slash c hc (by simpa using hh)

theorem rmSlashGo_false_slash_cons (X : List Char) (h : ¬(X.head? = some '/')) :
    rmSlashGo false ('/' :: X) = '/' :: rmSlashGo false X := by
  cases X with
  | nil => rfl
  | cons c l =>
    rw [rmSlashGo_false_pair, if_neg]
    rintro ⟨_, h2⟩
    exact h (by simp [h2])

/-! ## Phase A1: step 1 equals the slash pass -/

theorem render_eq_of_tok (t : Tok) (rest : List Tok) :
    render (t :: rest) = rTok t ++ render rest := rfl

theorem renderSlash : ∀ (d : List Tok), wfsDoc d = true →
    rmSlashGo false (render d) = render (slashPass d)
  | [], _ => rfl
  | Tok.txt s :: rest, h => by
    rcases wfsDoc_cons _ _ h with ⟨htok, _, hrest⟩
    rcases tokWFS_txt s htok with ⟨_, hall⟩
    show rmSlashGo false (s ++ render rest) = s ++ render (slashPass rest)
    rw [rmSlashGo_false_append_clean s _
        (fun c hc => (txtCharOK_props c (hall c hc)).2.1),
      renderSlash rest hrest]
  | Tok.wsp c n :: rest, h => by
    rcases wfsDoc_cons _ _ h with ⟨htok, _, hrest⟩
    show rmSlashGo false (List.replicate (n + 1) c ++ render rest)
        = List.replicate (n + 1) c ++ render (slashPass rest)
    rw [rmSlashGo_false_append_clean _ _
        (fun x hx => by
          rw [List.eq_of_mem_replicate hx]
          exact isSpaceChar_not_slash c (tokWFS_wsp c n htok)),
      renderSlash rest hrest]
  | Tok.semi :: rest, h => by
    rcases wfsDoc_cons _ _ h with ⟨_, _, hrest⟩
    show rmSlashGo false ([';'] ++ render rest) = [';'] ++ render (slashPass rest)
    rw [rmSlashGo_false_append_clean _ _
        (fun x hx => by
          have hx' := List.mem_singleton.mp hx
          subst hx'
          decide),
      renderSlash rest hrest]
  | Tok.lcom t :: rest, h => by
    rcases wfsDoc_cons _ _ h with ⟨htok, hadj, hrest⟩
    show rmSlashGo false ('/' :: '/' :: (t ++ render rest)) = render (slashPass rest)
    rw [rmSlashGo_false_pair, if_pos ⟨rfl, rfl⟩,
      rmSlashGo_true_append t _ (tokWFS_lcom t htok),
      rmSlashGo_true_eq_false _ (render_head_of_nlNext rest hadj),
      renderSlash rest hrest]
  | Tok.hcom t :: rest, h => by
    rcases wfsDoc_cons _ _ h with ⟨htok, hadj, hrest⟩
    show rmSlashGo false ('#' :: (t ++ render rest))
        = '#' :: (cutDS t ++ render (slashPass rest))
    rw [rmSlashGo_false_cons_ne _ _ (by decide),
      rmSlashGo_false_line t _ (tokWFS_hcom t htok) (render_head_of_nlNext rest hadj),
      renderSlash rest hrest]
  | Tok.bcom t :: rest, h => by
    rcases wfsDoc_cons _ _ h with ⟨htok, hadj, hrest⟩
    rcases tokWFS_bcom t htok with ⟨_, hds, _⟩
    show rmSlashGo false (('/' :: '*' :: (t ++ ['*', '/'])) ++ render rest)
        = ('/' :: '*' :: (t ++ ['*', '/'])) ++ render (slashPass rest)
    have hshape : ('/' :: '*' :: (t ++ ['*', '/'])) ++ render rest
        = '/' :: '*' :: (t ++ ('*' :: '/' :: render rest)) := by
      simp
    have hshape2 : ('/' :: '*' :: (t ++ ['*', '/'])) ++ render (slashPass rest)
        = '/' :: '*' :: (t ++ ('*' :: '/' :: render (slashPass rest))) := by
      simp
    rw [hshape, hshape2, rmSlashGo_false_pair, if_neg (by rintro ⟨_, hx⟩; exact absurd hx (by decide)),
      rmSlashGo_false_cons_ne _ _ (by decide),
      rmSlashGo_false_append t _ hds
        (fun hh => by
          simp only [List.head?_cons, Option.some.injEq] at hh
          exact absurd hh (by decide)),
      rmSlashGo_false_pair, if_neg (by rintro ⟨hx, _⟩; exact absurd hx (by decide)),
      rmSlashGo_false_slash_cons _ (render_head_not_slash rest hrest hadj),
      renderSlash rest hrest]

/-! ## Scanner lemmas: step 2 (`#` removal) -/

theorem rmHashGo_nil (b : Bool) : rmHashGo b [] = [] := by cases b <;> rfl

theorem rmHashGo_true_cons (c : Char) (l : List Char) :
    rmHashGo true (c :: l) =
      if c = '\n' then c :: rmHashGo false l else rmHashGo true l := rfl

theorem rmHashGo_false_cons (c : Char) (l : List Char) :
    rmHashGo false (c :: l) =
      if c = '#' then rmHashGo true l else c :: rmHashGo false l := rfl

theorem rmHashGo_true_append (t r : List Char) (ht : ¬('\n' ∈ t)) :
    rmHashGo true (t ++ r) = rmHashGo true r := by
  induction t with
  | nil => rfl
  | cons c t' ih =>
    rw [List.cons_append, rmHashGo_true_cons, if_neg]
    · exact ih (fun hm => ht (List.mem_cons_of_mem c hm))
    · intro hc
      exact ht (by rw [hc]; exact List.mem_cons_self _ _)

theorem rmHashGo_true_eq_false (r : List Char)
    (hr : r = [] ∨ r.head? = some '\n') : rmHashGo true r = rmHashGo false r := by
  rcases hr with rfl | hh
  · rfl
  · cases r with
    | nil => rfl
    | cons c l =>
      have hc : c = '\n' := by simpa using hh
      subst hc
      rw [rmHashGo_true_cons, if_pos rfl, rmHashGo_false_cons, if_neg (by decide)]

theorem rmHashGo_false_append_clean (s r : List Char) (h : ∀ c ∈ s, ¬(c = '#')) :
    rmHashGo false (s ++ r) = s ++ rmHashGo false r := by
  induction s with
  | nil => rfl
  | cons c s' ih =>
    rw [List.cons_append, rmHashGo_false_cons, if_neg (h c (List.mem_cons_self _ _)),
      ih (fun x hx => h x (List.mem_cons_of_mem c hx))]
    rfl

/-! ## Absence predicates for passed stages -/

def noLcom : List Tok → Bool
  | [] => true
  | Tok.lcom _ :: _ => false
  | _ :: rest => noLcom rest

def noHcom : List Tok → Bool
  | [] => true
  | Tok.hcom _ :: _ => false
  | _ :: rest => noHcom rest

def noBcom : List Tok → Bool
  | [] => true
  | Tok.bcom _ :: _ => false
  | _ :: rest => noBcom rest

def noSemiTok : List Tok → Bool
  | [] => true
  | Tok.semi :: _ => false
  | _ :: rest => noSemiTok rest

/-- Shape of code/whitespace tokens, all the later stages need. -/
def txtOKDoc : List Tok → Bool
  | [] => true
  | Tok.txt s :: rest => (!decide (s = []) && s.all txtCharOK) && txtOKDoc rest
  | Tok.wsp c _ :: rest => isSpaceChar c && txtOKDoc rest
  | _ :: rest => txtOKDoc rest

/-! ## Pass preservation lemmas -/

theorem nlNext_slashPass (rest : List Tok) (h : nlNext rest = true) :
    nlNext (slashPass rest) = true := by
  cases rest with
  | nil => rfl
  | cons t r' =>
    cases t with
    | wsp c n => exact h
    | txt s => exact absurd h (by simp [nlNext])
    | lcom t => exact absurd h (by simp [nlNext])
    | hcom t => exact absurd h (by simp [nlNext])
    | bcom t => exact absurd h (by simp [nlNext])
    | semi => exact absurd h (by simp [nlNext])

theorem notComStart_slashPass (rest : List Tok) (h : notComStart rest = true) :
    notComStart (slashPass rest) = true := by
  cases rest with
  | nil => rfl
  | cons t r' =>
    cases t with
    | txt s => rfl
    | wsp c n => rfl
    | semi => rfl
    | hcom t => rfl
    | lcom t => exact absurd h (by simp [notComStart])
    | bcom t => exact absurd h (by simp [notComStart])

theorem wfsDoc_build (t : Tok) (rest : List Tok) (h1 : tokWFS t = true)
    (h2 : adjWFS t rest = true) (h3 : wfsDoc rest = true) :
    wfsDoc (t :: rest) = true := by
  show (tokWFS t && adjWFS t rest && wfsDoc rest) = true
  simp [h1, h2, h3]

theorem slashPass_wfs : ∀ (d : List Tok), wfsDoc d = true →
    wfsDoc (slashPass d) = true
  | [], _ => rfl
  | Tok.lcom t :: rest, h => slashPass_wfs rest (wfsDoc_cons _ _ h).2.2
  | Tok.hcom t :: rest, h => by
    rcases wfsDoc_cons _ _ h with ⟨htok, hadj, hrest⟩
    refine wfsDoc_build _ _ ?_ ?_ (slashPass_wfs rest hrest)
    · have ht := tokWFS_hcom t htok
      show (!decide ('\n' ∈ cutDS t)) = true
      simp only [Bool.not_eq_true', decide_eq_false_iff_not]
      exact fun hm => ht (cutDS_mem t '\n' hm)
    · exact nlNext_slashPass rest hadj
  | Tok.bcom t :: rest, h => by
    rcases wfsDoc_cons _ _ h with ⟨htok, hadj, hrest⟩
    exact wfsDoc_build _ _ htok (notComStart_slashPass rest hadj)
      (slashPass_wfs rest hrest)
  | Tok.txt s :: rest, h => by
    rcases wfsDoc_cons _ _ h with ⟨htok, _, hrest⟩
    exact wfsDoc_build _ _ htok rfl (slashPass_wfs rest hrest)
  | Tok.wsp c n :: rest, h => by
    rcases wfsDoc_cons _ _ h with ⟨htok, _, hrest⟩
    exact wfsDoc_build _ _ htok rfl (slashPass_wfs rest hrest)
  | Tok.semi :: rest, h => by
    rcases wfsDoc_cons _ _ h with ⟨htok, _, hrest⟩
    exact wfsDoc_build _ _ htok rfl (slashPass_wfs rest hrest)

theorem slashPass_noLcom : ∀ (d : List Tok), noLcom (slashPass d) = true
  | [] => rfl
  | Tok.lcom _ :: rest => slashPass_noLcom rest
  | Tok.hcom _ :: rest => slashPass_noLcom rest
  | Tok.txt _ :: rest => slashPass_noLcom rest
  | Tok.wsp _ _ :: rest => slashPass_noLcom rest
  | Tok.bcom _ :: rest => slashPass_noLcom rest
  | Tok.semi :: rest => slashPass_noLcom rest

/-! ## Phase A2: step 2 equals the hash pass -/

theorem renderHash : ∀ (d : List Tok), wfsDoc d = true → noLcom d = true →
    rmHashGo false (render d) = render (hashPass d)
  | [], _, _ => rfl
  | Tok.lcom t :: rest, _, hnl => by
    exact absurd hnl (by simp [noLcom])
  | Tok.hcom t :: rest, h, hnl => by
    rcases wfsDoc_cons _ _ h with ⟨htok, hadj, hrest⟩
    show rmHashGo false ('#' :: (t ++ render rest)) = render (hashPass rest)
    rw [rmHashGo_false_cons, if_pos rfl,
      rmHashGo_true_append t _ (tokWFS_hcom t htok),
      rmHashGo_true_eq_false _ (render_head_of_nlNext rest hadj),
      renderHash rest hrest hnl]
  | Tok.txt s :: rest, h, hnl => by
    rcases wfsDoc_cons _ _ h with ⟨htok, _, hrest⟩
    rcases tokWFS_txt s htok with ⟨_, hall⟩
    show rmHashGo false (s ++ render rest) = s ++ render (hashPass rest)
    rw [rmHashGo_false_append_clean s _
        (fun c hc => (txtCharOK_props c (hall c hc)).2.2.2.1),
      renderHash rest hrest hnl]
  | Tok.wsp c n :: rest, h, hnl => by
    rcases wfsDoc_cons _ _ h with ⟨htok, _, hrest⟩
    show rmHashGo false (List.replicate (n + 1) c ++ render rest)
        = List.replicate (n + 1) c ++ render (hashPass rest)
    rw [rmHashGo_false_append_clean _ _
        (fun x hx => by
          rw [List.eq_of_mem_replicate hx]
          exact isSpaceChar_not_hash c (tokWFS_wsp c n htok)),
      renderHash rest hrest hnl]
  | Tok.semi :: rest, h, hnl => by
    rcases wfsDoc_cons _ _ h with ⟨_, _, hrest⟩
    show rmHashGo false ([';'] ++ render rest) = [';'] ++ render (hashPass rest)
    rw [rmHashGo_false_append_clean _ _
        (fun x hx => by
          have hx' := List.mem_singleton.mp hx
          subst hx'
          decide),
      renderHash rest hrest hnl]
  | Tok.bcom t :: rest, h, hnl => by
    rcases wfsDoc_cons _ _ h with ⟨htok, _, hrest⟩
    rcases tokWFS_bcom t htok with ⟨_, _, hhash⟩
    show rmHashGo false (('/' :: '*' :: (t ++ ['*', '/'])) ++ render rest)
        = ('/' :: '*' :: (t ++ ['*', '/'])) ++ render (hashPass rest)
    rw [rmHashGo_false_append_clean _ _ ?_, renderHash rest hrest hnl]
    intro x hx
    simp only [List.mem_cons, List.mem_append, List.mem_singleton] at hx
    rcases hx with rfl | rfl | hx | rfl | rfl | hx2
    · decide
    · decide
    · exact fun he => hhash (he ▸ hx)
    · decide
    · decide
    · exact absurd hx2 (List.not_mem_nil x)

/-! ## hashPass preservation -/

theorem nlNext_hashPass (rest : List Tok) (h : nlNext rest = true) :
    nlNext (hashPass rest) = true := by
  cases rest with
  | nil => rfl
  | cons t r' =>
    cases t with
    | wsp c n => exact h
    | txt s => exact absurd h (by simp [nlNext])
    | lcom t => exact absurd h (by simp [nlNext])
    | hcom t => exact absurd h (by simp [nlNext])
    | bcom t => exact absurd h (by simp [nlNext])
    | semi => exact absurd h (by simp [nlNext])

theorem notComStart_hashPass (rest : List Tok) (hwf : wfsDoc rest = true)
    (h : notComStart rest = true) : notComStart (hashPass rest) = true := by
  cases rest with
  | nil => rfl
  | cons t r' =>
    cases t with
    | txt s => rfl
    | wsp c n => rfl
    | semi => rfl
    | lcom t => exact absurd h (by simp [notComStart])
    | bcom t => exact absurd h (by simp [notComStart])
    | hcom t =>
      have hadj : nlNext r' = true := (wfsDoc_cons _ _ hwf).2.1
      show notComStart (hashPass r') = true
      cases r' with
      | nil => rfl
      | cons t2 r'' =>
        cases t2 with
        | wsp c n => rfl
        | txt s => exact absurd hadj (by simp [nlNext])
        | lcom t => exact absurd hadj (by simp [nlNext])
        | hcom t => exact absurd hadj (by simp [nlNext])
        | bcom t => exact absurd hadj (by simp [nlNext])
        | semi => exact absurd hadj (by simp [nlNext])

theorem hashPass_wfs : ∀ (d : List Tok), wfsDoc d = true →
    wfsDoc (hashPass d) = true
  | [], _ => rfl
  | Tok.hcom t :: rest, h => hashPass_wfs rest (wfsDoc_cons _ _ h).2.2
  | Tok.lcom t :: rest, h => by
    rcases wfsDoc_cons _ _ h with ⟨htok, hadj, hrest⟩
    exact wfsDoc_build _ _ htok (nlNext_hashPass rest hadj) (hashPass_wfs rest hrest)
  | Tok.bcom t :: rest, h => by
    rcases wfsDoc_cons _ _ h with ⟨htok, hadj, hrest⟩
    exact wfsDoc_build _ _ htok (notComStart_hashPass rest hrest hadj)
      (hashPass_wfs rest hrest)
  | Tok.txt s :: rest, h => by
    rcases wfsDoc_cons _ _ h with ⟨htok, _, hrest⟩
    exact wfsDoc_build _ _ htok rfl (hashPass_wfs rest hrest)
  | Tok.wsp c n :: rest, h => by
    rcases wfsDoc_cons _ _ h with ⟨htok, _, hrest⟩
    exact wfsDoc_build _ _ htok rfl (hashPass_wfs rest hrest)
  | Tok.semi :: rest, h => by
    rcases wfsDoc_cons _ _ h with ⟨htok, _, hrest⟩
    exact wfsDoc_build _ _ htok rfl (hashPass_wfs rest hrest)

theorem hashPass_noLcom : ∀ (d : List Tok), noLcom d = true →
    noLcom (hashPass d) = true
  | [], _ => rfl
  | Tok.lcom _ :: _, h => absurd h (by simp [noLcom])
  | Tok.hcom _ :: rest, h => hashPass_noLcom rest h
  | Tok.txt _ :: rest, h => hashPass_noLcom rest h
  | Tok.wsp _ _ :: rest, h => hashPass_noLcom rest h
  | Tok.bcom _ :: rest, h => hashPass_noLcom rest h
  | Tok.semi :: rest, h => hashPass_noLcom rest h

theorem hashPass_noHcom : ∀ (d : List Tok), noHcom (hashPass d) = true
  | [] => rfl
  | Tok.hcom _ :: rest => hashPass_noHcom rest
  | Tok.lcom _ :: rest => hashPass_noHcom rest
  | Tok.txt _ :: rest => hashPass_noHcom rest
  | Tok.wsp _ _ :: rest => hashPass_noHcom rest
  | Tok.bcom _ :: rest => hashPass_noHcom rest
  | Tok.semi :: rest => hashPass_noHcom rest

/-! ## Scanner lemmas: step 3 (block-comment removal) -/

theorem dropToClose_nil : dropToClose [] = none := rfl

theorem dropToClose_single (c : Char) : dropToClose [c] = none := rfl

theorem dropToClose_pair (c c2 : Char) (l : List Char) :
    dropToClose (c :: c2 :: l) =
      if c = '*' ∧ c2 = '/' then some l else dropToClose (c2 :: l) := rfl

theorem dropToClose_length : ∀ (l r : List Char), dropToClose l = some r →
    r.length + 2 ≤ l.length
  | [], _, h => by simp [dropToClose_nil] at h
  | [c], _, h => by simp [dropToClose_single] at h
  | c :: c2 :: l', r, h => by
    rw [dropToClose_pair] at h
    by_cases hp : c = '*' ∧ c2 = '/'
    · rw [if_pos hp] at h
      cases h
      simp
    · rw [if_neg hp] at h
      have := dropToClose_length (c2 :: l') r h
      simp only [List.length_cons] at this ⊢
      omega

theorem dropToClose_append : ∀ (t r : List Char), hasClose t = false →
    dropToClose (t ++ '*' :: '/' :: r) = some r
  | [], r, _ => by rw [List.nil_append, dropToClose_pair, if_pos ⟨rfl, rfl⟩]
  | [c], r, _ => by
    rw [List.singleton_append, dropToClose_pair, if_neg]
    · rw [dropToClose_pair, if_pos ⟨rfl, rfl⟩]
    · rintro ⟨_, h2⟩
      exact absurd h2 (by decide)
  | c :: c2 :: t', r, ht => by
    rw [hasClose_cons2, Bool.or_eq_false_iff] at ht
    have hp : ¬(c = '*' ∧ c2 = '/') := by
      rintro ⟨rfl, rfl⟩
      simp at ht
    rw [List.cons_append, List.cons_append, dropToClose_pair, if_neg hp,
      ← List.cons_append, dropToClose_append (c2 :: t') r ht.2]

theorem rmBlockF_pair (f : Nat) (c c2 : Char) (rest : List Char) :
    rmBlockF (f + 1) (c :: c2 :: rest) =
      if c = '/' ∧ c2 = '*' then
        (match dropToClose rest with
         | some rest2 => rmBlockF f rest2
         | none => c :: c2 :: rest)
      else c :: rmBlockF f (c2 :: rest) := rfl

theorem rmBlockF_congr : ∀ (n : Nat) (s : List Char), s.length ≤ n →
    ∀ (f g : Nat), s.length ≤ f → s.length ≤ g → rmBlockF f s = rmBlockF g s
  | _, [], _, f, g, _, _ => by
    cases f <;> cases g <;> rfl
  | _, [c], _, f, g, hf, hg => by
    match f, g with
    | f' + 1, g' + 1 => rfl
  | n + 1, c :: c2 :: s', hn, f, g, hf, hg => by
    match f, g with
    | f' + 1, g' + 1 =>
      rw [rmBlockF_pair, rmBlockF_pair]
      by_cases hp : c = '/' ∧ c2 = '*'
      · rw [if_pos hp, if_pos hp]
        cases hdc : dropToClose s' with
        | none => rfl
        | some rest2 =>
          have hlen := dropToClose_length s' rest2 hdc
          simp only [List.length_cons] at hn hf hg
          exact rmBlockF_congr n rest2 (by omega) f' g' (by omega) (by omega)
      · rw [if_neg hp, if_neg hp]
        simp only [List.length_cons] at hn hf hg
        rw [rmBlockF_congr n (c2 :: s') (by simp; omega) f' g'
          (by simp; omega) (by simp; omega)]

theorem rmBlock_nil : rmBlock [] = [] := rfl

theorem rmBlock_single (c : Char) : rmBlock [c] = [c] := rfl

theorem rmBlock_pair_ne (c c2 : Char) (l : List Char) (h : ¬(c = '/' ∧ c2 = '*')) :
    rmBlock (c :: c2 :: l) = c :: rmBlock (c2 :: l) := by
  show rmBlockF ((c :: c2 :: l).length) (c :: c2 :: l) = _
  have : (c :: c2 :: l).length = (c2 :: l).length + 1 := rfl
  rw [this, rmBlockF_pair, if_neg h]
  rfl

theorem rmBlock_cons_ne (c : Char) (l : List Char) (hc : ¬(c = '/')) :
    rmBlock (c :: l) = c :: rmBlock l := by
  cases l with
  | nil => rfl
  | cons c2 l' =>
    exact rmBlock_pair_ne c c2 l' (fun hp => hc hp.1)

theorem rmBlock_append_clean (s r : List Char) (h : ∀ c ∈ s, ¬(c = '/')) :
    rmBlock (s ++ r) = s ++ rmBlock r := by
  induction s with
  | nil => rfl
  | cons c s' ih =>
    rw [List.cons_append, rmBlock_cons_ne c _ (h c (List.mem_cons_self _ _)),
      ih (fun x hx => h x (List.mem_cons_of_mem c hx))]
    rfl

theorem rmBlock_open (rest rest2 : List Char) (h : dropToClose rest = some rest2) :
    rmBlock ('/' :: '*' :: rest) = rmBlock rest2 := by
  show rmBlockF ((rest).length + 2) ('/' :: '*' :: rest) = _
  rw [show rest.length + 2 = (rest.length + 1) + 1 from rfl, rmBlockF_pair,
    if_pos ⟨rfl, rfl⟩, h]
  have hlen := dropToClose_length rest rest2 h
  exact rmBlockF_congr (rest.length + 1) rest2 (by omega) (rest.length + 1)
    rest2.length (by omega) (by omega)

/-! ## Phase A3: step 3 equals the block pass -/

theorem renderBlock : ∀ (d : List Tok), wfsDoc d = true → noLcom d = true →
    noHcom d = true → rmBlock (render d) = render (blockPass d)
  | [], _, _, _ => rfl
  | Tok.lcom t :: rest, _, hnl, _ => absurd hnl (by simp [noLcom])
  | Tok.hcom t :: rest, _, _, hnh => absurd hnh (by simp [noHcom])
  | Tok.txt s :: rest, h, hnl, hnh => by
    rcases wfsDoc_cons _ _ h with ⟨htok, _, hrest⟩
    rcases tokWFS_txt s htok with ⟨_, hall⟩
    show rmBlock (s ++ render rest) = s ++ render (blockPass rest)
    rw [rmBlock_append_clean s _
        (fun c hc => (txtCharOK_props c (hall c hc)).2.1),
      renderBlock rest hrest hnl hnh]
  | Tok.wsp c n :: rest, h, hnl, hnh => by
    rcases wfsDoc_cons _ _ h with ⟨htok, _, hrest⟩
    show rmBlock (List.replicate (n + 1) c ++ render rest)
        = List.replicate (n + 1) c ++ render (blockPass rest)
    rw [rmBlock_append_clean _ _
        (fun x hx => by
          rw [List.eq_of_mem_replicate hx]
          exact isSpaceChar_not_slash c (tokWFS_wsp c n htok)),
      renderBlock rest hrest hnl hnh]
  | Tok.semi :: rest, h, hnl, hnh => by
    rcases wfsDoc_cons _ _ h with ⟨_, _, hrest⟩
    show rmBlock ([';'] ++ render rest) = [';'] ++ render (blockPass rest)
    rw [rmBlock_append_clean _ _
        (fun x hx => by
          have hx' := List.mem_singleton.mp hx
          subst hx'
          decide),
      renderBlock rest hrest hnl hnh]
  | Tok.bcom t :: rest, h, hnl, hnh => by
    rcases wfsDoc_cons _ _ h with ⟨htok, _, hrest⟩
    rcases tokWFS_bcom t htok with ⟨hcl, _, _⟩
    show rmBlock (('/' :: '*' :: (t ++ ['*', '/'])) ++ render rest)
        = render (blockPass rest)
    have hshape : ('/' :: '*' :: (t ++ ['*', '/'])) ++ render rest
        = '/' :: '*' :: (t ++ ('*' :: '/' :: render rest)) := by
      simp
    rw [hshape, rmBlock_open _ _ (dropToClose_append t (render rest) hcl),
      renderBlock rest hrest hnl hnh]

/-! ## Shape bookkeeping for the last two stages -/

theorem wfs_txtOK : ∀ (d : List Tok), wfsDoc d = true → txtOKDoc d = true
  | [], _ => rfl
  | Tok.txt s :: rest, h => by
    rcases wfsDoc_cons _ _ h with ⟨htok, _, hrest⟩
    show ((!decide (s = []) && s.all txtCharOK) && txtOKDoc rest) = true
    have h1 : (!decide (s = []) && s.all txtCharOK) = true := htok
    simp [h1, wfs_txtOK rest hrest]
  | Tok.wsp c n :: rest, h => by
    rcases wfsDoc_cons _ _ h with ⟨htok, _, hrest⟩
    show (isSpaceChar c && txtOKDoc rest) = true
    simp [tokWFS_wsp c n htok, wfs_txtOK rest hrest]
  | Tok.lcom _ :: rest, h => wfs_txtOK rest (wfsDoc_cons _ _ h).2.2
  | Tok.hcom _ :: rest, h => wfs_txtOK rest (wfsDoc_cons _ _ h).2.2
  | Tok.bcom _ :: rest, h => wfs_txtOK rest (wfsDoc_cons _ _ h).2.2
  | Tok.semi :: rest, h => wfs_txtOK rest (wfsDoc_cons _ _ h).2.2

theorem txtOK_slashPass : ∀ (d : List Tok), txtOKDoc d = true →
    txtOKDoc (slashPass d) = true
  | [], _ => rfl
  | Tok.txt s :: rest, h => by
    have h' : ((!decide (s = []) && s.all txtCharOK) && txtOKDoc rest) = true := h
    simp only [Bool.and_eq_true] at h'
    show ((!decide (s = []) && s.all txtCharOK) && txtOKDoc (slashPass rest)) = true
    simp [h'.1, txtOK_slashPass rest h'.2]
  | Tok.wsp c n :: rest, h => by
    have h' : (isSpaceChar c && txtOKDoc rest) = true := h
    simp only [Bool.and_eq_true] at h'
    show (isSpaceChar c && txtOKDoc (slashPass rest)) = true
    simp [h'.1, txtOK_slashPass rest h'.2]
  | Tok.lcom _ :: rest, h => txtOK_slashPass rest h
  | Tok.hcom _ :: rest, h => txtOK_slashPass rest h
  | Tok.bcom _ :: rest, h => txtOK_slashPass rest h
  | Tok.semi :: rest, h => txtOK_slashPass rest h

theorem txtOK_hashPass : ∀ (d : List Tok), txtOKDoc d = true →
    txtOKDoc (hashPass d) = true
  | [], _ => rfl
  | Tok.txt s :: rest, h => by
    have h' : ((!decide (s = []) && s.all txtCharOK) && txtOKDoc rest) = true := h
    simp only [Bool.and_eq_true] at h'
    show ((!decide (s = []) && s.all txtCharOK) && txtOKDoc (hashPass rest)) = true
    simp [h'.1, txtOK_hashPass rest h'.2]
  | Tok.wsp c n :: rest, h => by
    have h' : (isSpaceChar c && txtOKDoc rest) = true := h
    simp only [Bool.and_eq_true] at h'
    show (isSpaceChar c && txtOKDoc (hashPass rest)) = true
    simp [h'.1, txtOK_hashPass rest h'.2]
  | Tok.lcom _ :: rest, h => txtOK_hashPass rest h
  | Tok.hcom _ :: rest, h => txtOK_hashPass rest h
  | Tok.bcom _ :: rest, h => txtOK_hashPass rest h
  | Tok.semi :: rest, h => txtOK_hashPass rest h

theorem txtOK_blockPass : ∀ (d : List Tok), txtOKDoc d = true →
    txtOKDoc (blockPass d) = true
  | [], _ => rfl
  | Tok.txt s :: rest, h => by
    have h' : ((!decide (s = []) && s.all txtCharOK) && txtOKDoc rest) = true := h
    simp only [Bool.and_eq_true] at h'
    show ((!decide (s = []) && s.all txtCharOK) && txtOKDoc (blockPass rest)) = true
    simp [h'.1, txtOK_blockPass rest h'.2]
  | Tok.wsp c n :: rest, h => by
    have h' : (isSpaceChar c && txtOKDoc rest) = true := h
    simp only [Bool.and_eq_true] at h'
    show (isSpaceChar c && txtOKDoc (blockPass rest)) = true
    simp [h'.1, txtOK_blockPass rest h'.2]
  | Tok.lcom _ :: rest, h => txtOK_blockPass rest h
  | Tok.hcom _ :: rest, h => txtOK_blockPass rest h
  | Tok.bcom _ :: rest, h => txtOK_blockPass rest h
  | Tok.semi :: rest, h => txtOK_blockPass rest h

theorem txtOK_semiPass : ∀ (d : List Tok), txtOKDoc d = true →
    txtOKDoc (semiPass d) = true
  | [], _ => rfl
  | Tok.txt s :: rest, h => by
    have h' : ((!decide (s = []) && s.all txtCharOK) && txtOKDoc rest) = true := h
    simp only [Bool.and_eq_true] at h'
    show ((!decide (s = []) && s.all txtCharOK) && txtOKDoc (semiPass rest)) = true
    simp [h'.1, txtOK_semiPass rest h'.2]
  | Tok.wsp c n :: rest, h => by
    have h' : (isSpaceChar c && txtOKDoc rest) = true := h
    simp only [Bool.and_eq_true] at h'
    show (isSpaceChar c && txtOKDoc (semiPass rest)) = true
    simp [h'.1, txtOK_semiPass rest h'.2]
  | Tok.lcom _ :: rest, h => txtOK_semiPass rest h
  | Tok.hcom _ :: rest, h => txtOK_semiPass rest h
  | Tok.bcom _ :: rest, h => txtOK_semiPass rest h
  | Tok.semi :: rest, h => txtOK_semiPass rest h

theorem blockPass_noLcom : ∀ (d : List Tok), noLcom d = true →
    noLcom (blockPass d) = true
  | [], _ => rfl
  | Tok.lcom _ :: _, h => absurd h (by simp [noLcom])
  | Tok.bcom _ :: rest, h => blockPass_noLcom rest h
  | Tok.txt _ :: rest, h => blockPass_noLcom rest h
  | Tok.wsp _ _ :: rest, h => blockPass_noLcom rest h
  | Tok.hcom _ :: rest, h => blockPass_noLcom rest h
  | Tok.semi :: rest, h => blockPass_noLcom rest h

theorem blockPass_noHcom : ∀ (d : List Tok), noHcom d = true →
    noHcom (blockPass d) = true
  | [], _ => rfl
  | Tok.hcom _ :: _, h => absurd h (by simp [noHcom])
  | Tok.bcom _ :: rest, h => blockPass_noHcom rest h
  | Tok.txt _ :: rest, h => blockPass_noHcom rest h
  | Tok.wsp _ _ :: rest, h => blockPass_noHcom rest h
  | Tok.lcom _ :: rest, h => blockPass_noHcom rest h
  | Tok.semi :: rest, h => blockPass_noHcom rest h

theorem blockPass_noBcom : ∀ (d : List Tok), noBcom (blockPass d) = true
  | [] => rfl
  | Tok.bcom _ :: rest => blockPass_noBcom rest
  | Tok.txt _ :: rest => blockPass_noBcom rest
  | Tok.wsp _ _ :: rest => blockPass_noBcom rest
  | Tok.lcom _ :: rest => blockPass_noBcom rest
  | Tok.hcom _ :: rest => blockPass_noBcom rest
  | Tok.semi :: rest => blockPass_noBcom rest

theorem semiPass_noLcom : ∀ (d : List Tok), noLcom d = true →
    noLcom (semiPass d) = true
  | [], _ => rfl
  | Tok.lcom _ :: _, h => absurd h (by simp [noLcom])
  | Tok.semi :: rest, h => semiPass_noLcom rest h
  | Tok.txt _ :: rest, h => semiPass_noLcom rest h
  | Tok.wsp _ _ :: rest, h => semiPass_noLcom rest h
  | Tok.hcom _ :: rest, h => semiPass_noLcom rest h
  | Tok.bcom _ :: rest, h => semiPass_noLcom rest h

theorem semiPass_noHcom : ∀ (d : List Tok), noHcom d = true →
    noHcom (semiPass d) = true
  | [], _ => rfl
  | Tok.hcom _ :: _, h => absurd h (by simp [noHcom])
  | Tok.semi :: rest, h => semiPass_noHcom rest h
  | Tok.txt _ :: rest, h => semiPass_noHcom rest h
  | Tok.wsp _ _ :: rest, h => semiPass_noHcom rest h
  | Tok.lcom _ :: rest, h => semiPass_noHcom rest h
  | Tok.bcom _ :: rest, h => semiPass_noHcom rest h

theorem semiPass_noBcom : ∀ (d : List Tok), noBcom d = true →
    noBcom (semiPass d) = true
  | [], _ => rfl
  | Tok.bcom _ :: _, h => absurd h (by simp [noBcom])
  | Tok.semi :: rest, h => semiPass_noBcom rest h
  | Tok.txt _ :: rest, h => semiPass_noBcom rest h
  | Tok.wsp _ _ :: rest, h => semiPass_noBcom rest h
  | Tok.lcom _ :: rest, h => semiPass_noBcom rest h
  | Tok.hcom _ :: rest, h => semiPass_noBcom rest h

theorem semiPass_noSemi : ∀ (d : List Tok), noSemiTok (semiPass d) = true
  | [] => rfl
  | Tok.semi :: rest => semiPass_noSemi rest
  | Tok.txt _ :: rest => semiPass_noSemi rest
  | Tok.wsp _ _ :: rest => semiPass_noSemi rest
  | Tok.lcom _ :: rest => semiPass_noSemi rest
  | Tok.hcom _ :: rest => semiPass_noSemi rest
  | Tok.bcom _ :: rest => semiPass_noSemi rest

/-! ## Phase B: step 4 (semicolon removal) equals the semi pass -/

theorem txtOKDoc_txt (s : List Char) (rest : List Tok)
    (h : txtOKDoc (Tok.txt s :: rest) = true) :
    (¬(s = []) ∧ ∀ c ∈ s, txtCharOK c = true) ∧ txtOKDoc rest = true := by
  have h' : ((!decide (s = []) && s.all txtCharOK) && txtOKDoc rest) = true := h
  simp only [Bool.and_eq_true, Bool.not_eq_true', decide_eq_false_iff_not,
    List.all_eq_true] at h'
  exact ⟨h'.1, h'.2⟩

theorem txtOKDoc_wsp (c : Char) (n : Nat) (rest : List Tok)
    (h : txtOKDoc (Tok.wsp c n :: rest) = true) :
    isSpaceChar c = true ∧ txtOKDoc rest = true := by
  have h' : (isSpaceChar c && txtOKDoc rest) = true := h
  simpa [Bool.and_eq_true] using h'

theorem renderSemiFilter : ∀ (d : List Tok), txtOKDoc d = true → noLcom d = true →
    noHcom d = true → noBcom d = true →
    (render d).filter (fun c => !decide (c = ';')) = render (semiPass d)
  | [], _, _, _, _ => rfl
  | Tok.lcom _ :: _, _, hnl, _, _ => absurd hnl (by simp [noLcom])
  | Tok.hcom _ :: _, _, _, hnh, _ => absurd hnh (by simp [noHcom])
  | Tok.bcom _ :: _, _, _, _, hnb => absurd hnb (by simp [noBcom])
  | Tok.txt s :: rest, h, hnl, hnh, hnb => by
    rcases txtOKDoc_txt s rest h with ⟨⟨_, hall⟩, hrest⟩
    show (s ++ render rest).filter (fun c => !decide (c = ';'))
        = s ++ render (semiPass rest)
    rw [List.filter_append, List.filter_eq_self.mpr
        (fun c hc => by
          simp only [Bool.not_eq_true', decide_eq_false_iff_not]
          exact (txtCharOK_props c (hall c hc)).2.2.2.2),
      renderSemiFilter rest hrest hnl hnh hnb]
  | Tok.wsp c n :: rest, h, hnl, hnh, hnb => by
    rcases txtOKDoc_wsp c n rest h with ⟨hsp, hrest⟩
    show (List.replicate (n + 1) c ++ render rest).filter (fun x => !decide (x = ';'))
        = List.replicate (n + 1) c ++ render (semiPass rest)
    rw [List.filter_append, List.filter_eq_self.mpr
        (fun x hx => by
          simp only [Bool.not_eq_true', decide_eq_false_iff_not]
          rw [List.eq_of_mem_replicate hx]
          exact isSpaceChar_not_semi c hsp),
      renderSemiFilter rest hrest hnl hnh hnb]
  | Tok.semi :: rest, h, hnl, hnh, hnb => by
    show ([';'] ++ render rest).filter (fun x => !decide (x = ';'))
        = render (semiPass rest)
    rw [List.filter_append, renderSemiFilter rest h hnl hnh hnb]
    rfl

/-! ## Phase C: step 5 (whitespace collapse) equals squashing -/

theorem collapseGo_cons (b : Bool) (c : Char) (l : List Char) :
    collapseGo b (c :: l) =
      if isSpaceChar c then
        if b then collapseGo true l else ' ' :: collapseGo true l
      else c :: collapseGo false l := rfl

theorem collapse_txt_append : ∀ (s : List Char), ¬(s = []) →
    (∀ c ∈ s, isSpaceChar c = false) → ∀ (r : List Char) (b : Bool),
    collapseGo b (s ++ r) = s ++ collapseGo false r
  | [], hne, _ => absurd rfl hne
  | c :: s', _, hall => by
    intro r b
    rw [List.cons_append, collapseGo_cons,
      if_neg (by rw [hall c (List.mem_cons_self _ _)]; exact Bool.false_ne_true)]
    cases hs' : s' with
    | nil => rfl
    | cons c2 s'' =>
      rw [← hs', collapse_txt_append s' (by rw [hs']; exact List.cons_ne_nil c2 s'')
        (fun x hx => hall x (List.mem_cons_of_mem c hx)) r false]
      rfl

theorem collapse_wsp_append : ∀ (s : List Char), ¬(s = []) →
    (∀ c ∈ s, isSpaceChar c = true) → ∀ (r : List Char) (b : Bool),
    collapseGo b (s ++ r) =
      (if b then ([] : List Char) else [' ']) ++ collapseGo true r
  | [], hne, _ => absurd rfl hne
  | c :: s', _, hall => by
    intro r b
    rw [List.cons_append, collapseGo_cons, if_pos (hall c (List.mem_cons_self _ _))]
    cases hs' : s' with
    | nil =>
      cases b <;> rfl
    | cons c2 s'' =>
      rw [← hs']
      have hrec := collapse_wsp_append s'
        (by rw [hs']; exact List.cons_ne_nil c2 s'')
        (fun x hx => hall x (List.mem_cons_of_mem c hx)) r true
      rw [if_pos rfl] at hrec
      cases b
      · simp only [if_neg Bool.false_ne_true]
        rw [hrec]
        rfl
      · simp only [if_pos rfl]
        rw [hrec]
        rfl

theorem renderCollapse : ∀ (d : List Tok) (b : Bool), txtOKDoc d = true →
    noLcom d = true → noHcom d = true → noBcom d = true → noSemiTok d = true →
    collapseGo b (render d) = squashGo b d
  | [], b, _, _, _, _, _ => by cases b <;> rfl
  | Tok.lcom _ :: _, _, _, hnl, _, _, _ => absurd hnl (by simp [noLcom])
  | Tok.hcom _ :: _, _, _, _, hnh, _, _ => absurd hnh (by simp [noHcom])
  | Tok.bcom _ :: _, _, _, _, _, hnb, _ => absurd hnb (by simp [noBcom])
  | Tok.semi :: _, _, _, _, _, _, hns => absurd hns (by simp [noSemiTok])
  | Tok.txt s :: rest, b, h, hnl, hnh, hnb, hns => by
    rcases txtOKDoc_txt s rest h with ⟨⟨hne, hall⟩, hrest⟩
    show collapseGo b (s ++ render rest) = s ++ squashGo false rest
    rw [collapse_txt_append s hne
        (fun c hc => (txtCharOK_props c (hall c hc)).1) _ b,
      renderCollapse rest false hrest hnl hnh hnb hns]
  | Tok.wsp c n :: rest, b, h, hnl, hnh, hnb, hns => by
    rcases txtOKDoc_wsp c n rest h with ⟨hsp, hrest⟩
    show collapseGo b (List.replicate (n + 1) c ++ render rest)
        = if b then squashGo true rest else ' ' :: squashGo true rest
    rw [collapse_wsp_append _ (by simp)
        (fun x hx => by rw [List.eq_of_mem_replicate hx]; exact hsp) _ b,
      renderCollapse rest true hrest hnl hnh hnb hns]
    cases b
    · rfl
    · rfl

/-! ## The four passes together erase exactly comments and semicolons -/

theorem passes_erase : ∀ (d : List Tok),
    semiPass (blockPass (hashPass (slashPass d))) = eraseTW d
  | [] => rfl
  | Tok.txt s :: rest => by
    show Tok.txt s :: semiPass (blockPass (hashPass (slashPass rest)))
        = Tok.txt s :: eraseTW rest
    rw [passes_erase rest]
  | Tok.wsp c n :: rest => by
    show Tok.wsp c n :: semiPass (blockPass (hashPass (slashPass rest)))
        = Tok.wsp c n :: eraseTW rest
    rw [passes_erase rest]
  | Tok.lcom t :: rest => passes_erase rest
  | Tok.hcom t :: rest => passes_erase rest
  | Tok.bcom t :: rest => passes_erase rest
  | Tok.semi :: rest => passes_erase rest

/-! ## Lower-casing commutes with whitespace structure -/

theorem toNat_lowerChar_shift (c : Char) (h : 65 ≤ c.toNat ∧ c.toNat ≤ 90) :
    (lowerChar c).toNat = c.toNat + 32 := by
  unfold lowerChar
  rw [dif_pos h]
  rfl

theorem lowerChar_id_of_not_upper (c : Char) (h : ¬(65 ≤ c.toNat ∧ c.toNat ≤ 90)) :
    lowerChar c = c := by
  unfold lowerChar
  rw [dif_neg h]

theorem isSpaceChar_lowerChar (c : Char) : isSpaceChar (lowerChar c) = isSpaceChar c := by
  by_cases h : 65 ≤ c.toNat ∧ c.toNat ≤ 90
  · have hs := toNat_lowerChar_shift c h
    show (decide ((lowerChar c).toNat = 32) || decide ((lowerChar c).toNat = 9)
        || decide ((lowerChar c).toNat = 10) || decide ((lowerChar c).toNat = 13)
        || decide ((lowerChar c).toNat = 11) || decide ((lowerChar c).toNat = 12))
      = (decide (c.toNat = 32) || decide (c.toNat = 9) || decide (c.toNat = 10)
        || decide (c.toNat = 13) || decide (c.toNat = 11) || decide (c.toNat = 12))
    rw [hs]
    have hL : (decide (c.toNat + 32 = 32) || decide (c.toNat + 32 = 9)
        || decide (c.toNat + 32 = 10) || decide (c.toNat + 32 = 13)
        || decide (c.toNat + 32 = 11) || decide (c.toNat + 32 = 12)) = false := by
      simp only [Bool.or_eq_false_iff, decide_eq_false_iff_not]
      omega
    have hR : (decide (c.toNat = 32) || decide (c.toNat = 9) || decide (c.toNat = 10)
        || decide (c.toNat = 13) || decide (c.toNat = 11) || decide (c.toNat = 12))
        = false := by
      simp only [Bool.or_eq_false_iff, decide_eq_false_iff_not]
      omega
    rw [hL, hR]
  · rw [lowerChar_id_of_not_upper c h]

theorem lowerChars_append (a b : List Char) :
    lowerChars (a ++ b) = lowerChars a ++ lowerChars b := List.map_append _ a b

theorem lowerChars_stripChars (l : List Char) :
    lowerChars (stripChars l) = stripChars (lowerChars l) := by
  have hpf : (isSpaceChar ∘ lowerChar) = isSpaceChar := funext isSpaceChar_lowerChar
  unfold stripChars lowerChars
  rw [List.dropWhile_map, hpf, ← List.map_reverse, List.dropWhile_map, hpf,
    ← List.map_reverse]

/-! ## DocSim invariance of the squashed, lower-cased form -/

theorem docSim_lower_squash {a b : List Tok} (h : DocSim a b) :
    ∀ (flag : Bool),
      lowerChars (squashGo flag (eraseTW a)) = lowerChars (squashGo flag (eraseTW b)) := by
  induction h with
  | nil => intro flag; rfl
  | cons hts hd ih =>
    intro flag
    cases hts with
    | txt s1 s2 hls =>
      show lowerChars (s1 ++ squashGo false (eraseTW _))
          = lowerChars (s2 ++ squashGo false (eraseTW _))
      rw [lowerChars_append, lowerChars_append]
      have h1 : lowerChars s1 = lowerChars s2 := hls
      rw [h1, ih false]
    | lcom t1 t2 => exact ih flag
    | hcom t1 t2 => exact ih flag
    | bcom t1 t2 => exact ih flag
    | semi => exact ih flag
    | wsp c n m =>
      cases flag
      · show lowerChars (' ' :: squashGo true (eraseTW _))
            = lowerChars (' ' :: squashGo true (eraseTW _))
        have h2 := ih true
        unfold lowerChars at h2 ⊢
        rw [List.map_cons, List.map_cons, h2]
      · exact ih true
  | semiL hd ih => intro flag; exact ih flag
  | semiR hd ih => intro flag; exact ih flag

/-! ## Master chain: normalization of a wellformed document -/

theorem normalize_render (d : List Tok) (h : wfsDoc d = true) :
    normalizeChars (render d) = lowerChars (stripChars (squashGo false (eraseTW d))) := by
  have h1 := slashPass_wfs d h
  have h2 := hashPass_wfs _ h1
  have hnl1 := slashPass_noLcom d
  have hnl2 := hashPass_noLcom _ hnl1
  have hnh2 := hashPass_noHcom (slashPass d)
  have htxt3 := txtOK_blockPass _ (wfs_txtOK _ h2)
  have hnl3 := blockPass_noLcom _ hnl2
  have hnh3 := blockPass_noHcom _ hnh2
  have hnb3 := blockPass_noBcom (hashPass (slashPass d))
  unfold normalizeChars
  rw [renderSlash d h, renderHash _ h1 hnl1, renderBlock _ h2 hnl2 hnh2,
    renderSemiFilter _ htxt3 hnl3 hnh3 hnb3,
    renderCollapse _ false (txtOK_semiPass _ htxt3) (semiPass_noLcom _ hnl3)
      (semiPass_noHcom _ hnh3) (semiPass_noBcom _ hnb3) (semiPass_noSemi _),
    passes_erase d]

/-! ## Claim C3 -/

/-- C3 amended: `normalize_code` identifies two strings that differ only
in comment text, statement-terminator semicolons, whitespace-run length
or letter case, PROVIDED the strengthened wellformedness holds: comment
markers occur only as comment delimiters (code text carries no `/`, `*`,
`#`, `;`), block-comment text contains no line-comment marker (`//`, `#`)
and no early closer, and a block comment is not immediately followed by
another comment's `/`.  Without the proviso the property fails (see the
counterexample). -/
theorem normalize_invariant_docsim (d1 d2 : List Tok) (hsim : DocSim d1 d2)
    (h1 : wfsDoc d1 = true) (h2 : wfsDoc d2 = true) :
    normalize_code (String.mk (render d1)) = normalize_code (String.mk (render d2)) := by
  show String.mk (normalizeChars (render d1)) = String.mk (normalizeChars (render d2))
  have heq : normalizeChars (render d1) = normalizeChars (render d2) := by
    rw [normalize_render d1 h1, normalize_render d2 h2,
      lowerChars_stripChars, lowerChars_stripChars,
      docSim_lower_squash hsim false]
  rw [heq]

/-- The two documents of the counterexample: they differ only in the text
of one block comment (`" // "` against `" z "`). -/
def cexDoc1 : List Tok :=
  [Tok.txt ['x'], Tok.wsp ' ' 0, Tok.bcom [' ', '/', '/', ' '],
   Tok.wsp ' ' 0, Tok.txt ['y']]

def cexDoc2 : List Tok :=
  [Tok.txt ['x'], Tok.wsp ' ' 0, Tok.bcom [' ', 'z', ' '],
   Tok.wsp ' ' 0, Tok.txt ['y']]

/-- C3 counterexample: `"x /* // */ y"` and `"x /* z */ y"` differ only
in the text of one block comment (they render two documents related by
`DocSim`, both wellformed tokenizations), yet normalize differently:
the `//` inside the block comment trips the line-comment strip (step 1
runs before block-comment removal) and destroys the comment's closer, so
the first normalizes to `"x /*"` while the second normalizes to
`"x y"`.  The claim, which quantifies over arbitrary comment text, is
therefore false. -/
theorem normalize_comment_text_counterexample :
    DocSim cexDoc1 cexDoc2
    ∧ wfDoc cexDoc1 = true
    ∧ wfDoc cexDoc2 = true
    ∧ String.mk (render cexDoc1) = "x /* // */ y"
    ∧ String.mk (render cexDoc2) = "x /* z */ y"
    ∧ normalize_code "x /* // */ y" = "x /*"
    ∧ normalize_code "x /* z */ y" = "x y"
    ∧ normalize_code (String.mk (render cexDoc1))
        ≠ normalize_code (String.mk (render cexDoc2)) :=
  ⟨DocSim.cons (TokSim.txt _ _ rfl)
      (DocSim.cons (TokSim.wsp ' ' 0 0)
        (DocSim.cons (TokSim.bcom _ _)
          (DocSim.cons (TokSim.wsp ' ' 0 0)
            (DocSim.cons (TokSim.txt _ _ rfl) DocSim.nil)))),
   by decide, by decide, by decide, by decide, by decide, by decide, by decide⟩

def witDoc1 : List Tok :=
  [Tok.txt ['I', 'f'], Tok.wsp ' ' 0, Tok.bcom [' ', 'n', 'o', 't', 'e', ' '],
   Tok.wsp ' ' 1, Tok.txt ['X'], Tok.semi]

def witDoc2 : List Tok :=
  [Tok.txt ['i', 'f'], Tok.wsp ' ' 2, Tok.bcom [' ', 'o', 't', 'h', 'e', 'r', ' '],
   Tok.wsp ' ' 0, Tok.txt ['x']]

/-- C3 witness: two concrete wellformed documents differing in comment
text, whitespace-run lengths, letter case, and a trailing semicolon
normalize identically (`"If /* note */  X;"` and `"if   /* other */ x"`
both normalize to `"if x"`). -/
theorem normalize_invariant_docsim_witness :
    wfsDoc witDoc1 = true ∧ wfsDoc witDoc2 = true
    ∧ String.mk (render witDoc1) = "If /* note */  X;"
    ∧ String.mk (render witDoc2) = "if   /* other */ x"
    ∧ normalize_code (String.mk (render witDoc1))
        = normalize_code (String.mk (render witDoc2)) :=
  ⟨by decide, by decide, by decide, by decide,
   normalize_invariant_docsim witDoc1 witDoc2
     (DocSim.cons (TokSim.txt _ _ (by decide))
       (DocSim.cons (TokSim.wsp ' ' 0 2)
         (DocSim.cons (TokSim.bcom _ _)
           (DocSim.cons (TokSim.wsp ' ' 1 0)
             (DocSim.cons (TokSim.txt _ _ (by decide))
               (DocSim.semiL DocSim.nil))))))
     (by decide) (by decide)⟩
